import Mathlib

/-!
Verification of the `imagenet` downloader (`src/imagenet/__init__.py`)
against its natural-language specification.

The development shallowly embeds the functional core of the script:

* the URL building pipeline (`build_url`, `_encode_params`, `_encode`),
  together with the parts of the Python 3.11 standard library it calls
  (`urllib.parse.urlparse`, `urlunparse`, `urlencode`, `quote_plus`);
* the retrying fetcher `download_wnid`;
* the per-identifier step `get_wnid` and the batch driver `get_wnids`,
  with the file system and the network modelled as explicit state and
  as an oracle, and the side effects recorded in an event trace.

Strings flowing through the URL machinery are modelled as `List Char`;
byte strings (HTTP bodies, UTF-8 encodings) as `List Nat` with every
entry below 256.
-/

namespace Imagenet

abbrev Chars := List Char

/-! ### Percent encoding (`urllib.parse.quote_plus` on UTF-8 bytes)

CPython quotes per byte: a byte in `_ALWAYS_SAFE` (ASCII letters, digits,
and `_.-~`) is kept, a space becomes `+` (`quote_plus`), and every other
byte becomes `%XX` with uppercase hex digits.  A `str` input is first
encoded to UTF-8 (the downloader feeds `urlencode` with `str` keys and
with values already encoded by `_encode`, i.e. `str(value).encode("utf-8")`;
both paths quote the same UTF-8 byte sequence). -/

def hexUpper (n : Nat) : Char := "0123456789ABCDEF".data.getD n '0'

/-- Membership in CPython `_ALWAYS_SAFE`: ASCII letters, digits, `_.-~`. -/
def safeByte (b : Nat) : Bool :=
  (65 ≤ b && b ≤ 90) || (97 ≤ b && b ≤ 122) || (48 ≤ b && b ≤ 57) ||
  b == 95 || b == 46 || b == 45 || b == 126

/-- Quoting of one byte by `quote_plus`: safe bytes survive, the space
byte becomes `+`, anything else becomes `%XX` (uppercase hex). -/
def quoteByte (b : Nat) : Chars :=
  if safeByte b then [Char.ofNat b]
  else if b = 32 then ['+']
  else ['%', hexUpper (b / 16 % 16), hexUpper (b % 16)]

/-- UTF-8 encoding of one character (the bytes `str.encode("utf-8")`
produces for it). -/
def utf8Bytes (c : Char) : List Nat :=
  let n := c.toNat
  if n < 128 then [n]
  else if n < 2048 then [192 + n / 64, 128 + n % 64]
  else if n < 65536 then [224 + n / 4096, 128 + n / 64 % 64, 128 + n % 64]
  else [240 + n / 262144, 128 + n / 4096 % 64, 128 + n / 64 % 64, 128 + n % 64]

/-- `quote_plus` on a raw byte string. -/
def quotePlusBytes (bs : List Nat) : Chars := bs.flatMap quoteByte

/-- `quote_plus` applied to a string via its UTF-8 encoding; this is what
`urlencode` does to both keys and (already byte-encoded) values in the
downloader. -/
def quotePlus (s : Chars) : Chars := quotePlusBytes (s.flatMap utf8Bytes)

/-- `urllib.parse.urlencode` on an association list (the items of the
`dict` built by `_encode_params`): each pair becomes
`quote_plus(key) = quote_plus(value)` and the pairs are joined by `&`. -/
def urlencode (ps : List (Chars × Chars)) : Chars :=
  List.intercalate ['&'] (ps.map fun p => quotePlus p.1 ++ '=' :: quotePlus p.2)

/-- `ImagenetDownloader._encode_params`: drop pairs whose value is `None`
(`Option.none`), then `urlencode` the remaining pairs.  `_encode` (with the
default `input_encoding=None`) turns each value into its UTF-8 bytes, which
`quotePlus` already accounts for. -/
def encode_params (ps : List (Chars × Option Chars)) : Chars :=
  urlencode (ps.filterMap fun p => p.2.map fun v => (p.1, v))

/-! ### `urllib.parse` URL splitting, CPython 3.11 semantics -/

/-- Bytes removed from a URL before parsing (WHATWG rule in CPython:
`_UNSAFE_URL_BYTES_TO_REMOVE` is tab, CR, LF). -/
def unsafeChar (c : Char) : Bool := c == '\t' || c == '\r' || c == '\n'

/-- Membership in CPython `scheme_chars`: ASCII letters, digits, `+-.`. -/
def isSchemeChar (c : Char) : Bool :=
  let n := c.toNat
  (97 ≤ n && n ≤ 122) || (65 ≤ n && n ≤ 90) || (48 ≤ n && n ≤ 57) ||
  n == 43 || n == 45 || n == 46

/-- An ASCII letter (`c.isascii() and c.isalpha()` in CPython). -/
def isAsciiAlpha (c : Char) : Bool :=
  (65 ≤ c.toNat && c.toNat ≤ 90) || (97 ≤ c.toNat && c.toNat ≤ 122)

/-- A character terminating the network-location part
(`_splitnetloc` scans for the earliest of followed by `/`, `?`, `#`). -/
def isNetlocDelim (c : Char) : Bool := c == '/' || c == '?' || c == '#'

structure SplitResult where
  scheme : Chars
  netloc : Chars
  path : Chars
  query : Chars
  fragment : Chars
deriving Repr, DecidableEq

/-- Removal of tab, CR and LF before parsing (the WHATWG rule of
CPython: `for b in _UNSAFE_URL_BYTES_TO_REMOVE: url = url.replace(b, "")`). -/
def sanitize (l : Chars) : Chars := l.filter fun c => !unsafeChar c

/-- The scheme test of `urlsplit`: `i = url.find(':')` succeeds with
`i > 0`, `url[0]` an ASCII letter, and only `scheme_chars` before the
colon — equivalently, the first character is an ASCII letter and the
maximal `scheme_chars` prefix is followed by `:` (the first colon has
only scheme characters before it exactly when `dropWhile` stops at it;
`i > 0` follows since an ASCII letter is a scheme character).  The part
before the colon is lowercased. -/
def schemeSplit (url : Chars) : Chars × Chars :=
  if isAsciiAlpha (url.headD ' ') then
    match url.dropWhile isSchemeChar with
    | ':' :: r => ((url.takeWhile isSchemeChar).map Char.toLower, r)
    | _ => ([], url)
  else ([], url)

/-- The netloc test of `urlsplit`: when the rest starts with `//`,
`_splitnetloc` takes everything up to the earliest of `/`, `?`, `#`. -/
def netlocSplit (rest : Chars) : Chars × Chars :=
  match rest with
  | '/' :: '/' :: r => (r.takeWhile fun c => !isNetlocDelim c,
                        r.dropWhile fun c => !isNetlocDelim c)
  | r => ([], r)

/-- `url.split('#', 1)`: the part before the first `#` and the part
after it (empty when there is no `#`, as in CPython where the split is
guarded by `'#' in url`). -/
def fragSplit (l : Chars) : Chars × Chars :=
  (l.takeWhile fun c => !(c == '#'), (l.dropWhile fun c => !(c == '#')).tail)

/-- `url.split('?', 1)`, as `fragSplit`. -/
def querySplit (l : Chars) : Chars × Chars :=
  (l.takeWhile fun c => !(c == '?'), (l.dropWhile fun c => !(c == '?')).tail)

/-- CPython `urllib.parse.urlsplit` (3.11), for `str` input with the
default `scheme=''` and `allow_fragments=True`: sanitize, split the
scheme, the netloc, the fragment (at the first `#`), and the query (at
the first `?` of what precedes any fragment).

Not modelled: the two `ValueError` paths CPython can take for a netloc
with unbalanced `[`/`]` or with non-ASCII characters that change under
NFKC normalisation; the model treats the netloc purely textually, which
agrees with CPython on every input that does not raise. -/
def urlsplit (url0 : Chars) : SplitResult :=
  let sr := schemeSplit (sanitize url0)
  let nr := netlocSplit sr.2
  let fr := fragSplit nr.2
  let qr := querySplit fr.1
  ⟨sr.1, nr.1, qr.1, qr.2, fr.2⟩

/-- CPython `uses_params`: schemes whose path may carry `;params`. -/
def usesParams : List Chars :=
  [[], "ftp".data, "hdl".data, "prospero".data, "http".data, "imap".data,
   "https".data, "shttp".data, "rtsp".data, "rtspu".data, "sip".data,
   "sips".data, "mms".data, "sftp".data, "tel".data]

/-- CPython `uses_netloc`: schemes for which `urlunsplit` re-inserts `//`. -/
def usesNetloc : List Chars :=
  [[], "ftp".data, "http".data, "gopher".data, "nntp".data, "telnet".data,
   "imap".data, "wais".data, "file".data, "mms".data, "https".data,
   "shttp".data, "snews".data, "prospero".data, "rtsp".data, "rtspu".data,
   "rsync".data, "svn".data, "svn+ssh".data, "sftp".data, "nfs".data,
   "git".data, "git+ssh".data, "ws".data, "wss".data]

/-- CPython `_splitparams`: split `;params` off the last path segment
(off the whole path when it has no `/`).  Total model: when no `;` is in
scope it returns the path unchanged with empty params, matching the
`';' in url` guard at the call site. -/
def splitparams (l : Chars) : Chars × Chars :=
  if l.contains '/' then
    let seg := (l.reverse.takeWhile fun c => !(c == '/')).reverse
    let pre := (l.reverse.dropWhile fun c => !(c == '/')).reverse
    if seg.contains ';' then
      (pre ++ seg.takeWhile fun c => !(c == ';'),
       (seg.dropWhile fun c => !(c == ';')).tail)
    else (l, [])
  else if l.contains ';' then
    (l.takeWhile fun c => !(c == ';'), (l.dropWhile fun c => !(c == ';')).tail)
  else (l, [])

structure ParseResult where
  scheme : Chars
  netloc : Chars
  path : Chars
  params : Chars
  query : Chars
  fragment : Chars
deriving Repr, DecidableEq

/-- CPython `urllib.parse.urlparse`: `urlsplit`, then split `;params`
from the path when the scheme is in `uses_params` and the path holds `;`. -/
def urlparse (url : Chars) : ParseResult :=
  let s := urlsplit url
  let pp : Chars × Chars :=
    if usesParams.contains s.scheme && s.path.contains ';' then
      splitparams s.path
    else (s.path, [])
  ⟨s.scheme, s.netloc, pp.1, pp.2, s.query, s.fragment⟩

/-- CPython `urllib.parse.urlunsplit` (3.11).  Note the 3.11 condition
for re-inserting `//`: a nonempty netloc, or a nonempty `uses_netloc`
scheme with a path that does not already start with `//`. -/
def urlunsplit (r : SplitResult) : Chars :=
  let url := r.path
  let url :=
    if r.netloc ≠ [] ∨ (r.scheme ≠ [] ∧ usesNetloc.contains r.scheme ∧
        url.take 2 ≠ ['/', '/']) then
      '/' :: '/' :: r.netloc ++
        (if url ≠ [] ∧ url.head? ≠ some '/' then '/' :: url else url)
    else url
  let url := if r.scheme ≠ [] then r.scheme ++ ':' :: url else url
  let url := if r.query ≠ [] then url ++ '?' :: r.query else url
  if r.fragment ≠ [] then url ++ '#' :: r.fragment else url

/-- CPython `urllib.parse.urlunparse`: re-attach `;params` to the path,
then `urlunsplit`. -/
def urlunparse (r : ParseResult) : Chars :=
  urlunsplit ⟨r.scheme, r.netloc,
    (if r.params ≠ [] then r.path ++ ';' :: r.params else r.path),
    r.query, r.fragment⟩

/-! ### `ImagenetDownloader.build_url` -/

/-- The path `build_url` passes to `urlunparse`: when the `components`
argument is truthy, falsy components are dropped, a `/` is appended to a
path that does not end in one, and the components are joined by `/`. -/
def buildPath (u : Chars) (components : List Chars) : Chars :=
  let path := (urlparse u).path
  if components ≠ [] then
    let c := components.filter (· ≠ [])
    let p := if (urlparse u).path.getLast? ≠ some '/' then path ++ ['/'] else path
    p ++ List.intercalate ['/'] c
  else path

/-- The query `build_url` passes to `urlunparse`: when `params_extra` is
truthy (a nonempty dict), its encoding is appended directly after any
existing query — with no separator — and replaces an empty query. -/
def buildQuery (u : Chars) (params_extra : List (Chars × Option Chars)) : Chars :=
  let query := (urlparse u).query
  if params_extra ≠ [] then
    let query_extra := encode_params params_extra
    if query ≠ [] then query ++ query_extra else query_extra
  else query

/-- `ImagenetDownloader.build_url(url, components, params_extra)`:
parse the base URL, extend path and query, and reassemble.  The `dict`
argument `params_extra` is modelled as an association list in insertion
order, a `None` value as `Option.none`; `components=None` and an empty
sequence are both the empty list (both are falsy in the source). -/
def build_url (u : Chars) (components : List Chars)
    (params_extra : List (Chars × Option Chars)) : Chars :=
  let r := urlparse u
  urlunparse ⟨r.scheme, r.netloc, buildPath u components, r.params,
    buildQuery u params_extra, r.fragment⟩

/-- The complete path component `build_url` hands to `urlunsplit` (the
built path with the base URL's `;params` re-attached by `urlunparse`). -/
def fullPath (u : Chars) (components : List Chars) : Chars :=
  if (urlparse u).params ≠ []
  then buildPath u components ++ ';' :: (urlparse u).params
  else buildPath u components

/-! ### Query strings as key=value pairs

A query string denotes the `&`-separated list of `key=value` pairs; this
is the reading under which the specification asserts that every non-null
parameter "is present as a percent-encoded key=value pair … exactly once". -/

/-- The key=value pairs of a query string: split on `&`, then split each
piece at its first `=` (a piece without `=` yields an empty value). -/
def queryPairs (q : Chars) : List (Chars × Chars) :=
  if q = [] then []
  else (q.splitOn '&').map fun piece =>
    (piece.takeWhile fun c => !(c == '='),
     (piece.dropWhile fun c => !(c == '=')).tail)

/-- The percent-encoded pairs of the non-null parameters, in order. -/
def encodedPairs (ps : List (Chars × Option Chars)) : List (Chars × Chars) :=
  ps.filterMap fun p => p.2.map fun v => (quotePlus p.1, quotePlus v)

/-! Sanity checks against CPython 3.11 (values produced by the reference
interpreter on the same inputs). -/

example : quotePlus "a b+c/~_.-%".data = "a+b%2Bc%2F~_.-%25".data := by decide

example : quotePlus "é".data = "%C3%A9".data := by decide

example : urlparse "http://h/p?b=25".data =
    ⟨"http".data, "h".data, "/p".data, [], "b=25".data, []⟩ := by decide

example : urlparse "a/b;c:d".data =
    ⟨[], [], "a/b".data, "c:d".data, [], []⟩ := by decide

example : urlparse "1:b".data = ⟨[], [], "1:b".data, [], [], []⟩ := by decide

example : urlparse "a:b".data = ⟨"a".data, [], "b".data, [], [], []⟩ := by
  decide

example : urlunparse (urlparse "http:////x".data) = "http://x".data := by
  decide

example : urlparse "http://www.image-net.org/download/synset?".data =
    ⟨"http".data, "www.image-net.org".data, "/download/synset".data,
     [], [], []⟩ := by decide

example :
    build_url "http://h/p?b=25".data [] [("b".data, some "2".data)] =
      "http://h/p?b=25b=2".data := by decide

/-! ### The fetcher `ImagenetDownloader.download_wnid`

The network is an oracle giving the outcome of the `urlopen`/`read`
attempt with a given zero-based index.  Every failing attempt increments
`count`, so attempt `i` runs with `count = i`.  The two exception arms of
the source are the two failure kinds:

* `urllib.error.HTTPError`, `http.client.HTTPException`,
  `ssl.CertificateError` — protocol/certificate failures, retried with
  no sleep;
* `urllib.error.URLError`, `socket.timeout`, `socket.error`, `IOError`
  — transport failures, retried after `time.sleep(self.sleep)`
  (`HTTPError` is a subclass of `URLError`, but the first arm is checked
  first, so it wins).

The `if f is None: raise DownloadError('Cannot open URL' + url)` guard is
dead code — `urlopen` returns a response object or raises — and is not
modelled.  Side effects are recorded as an event trace: one `net` event
per attempt and one `sleepEv` event per `time.sleep(self.sleep)` call
(the only `sleep` call site always passes the configured duration). -/

/-- Mirror of `class DownloadError(Exception)`: it carries only the
`message` passed to its constructor (default `""`). -/
structure DownloadErr where
  message : String
deriving Repr, DecidableEq

inductive Outcome
  | success (content : List Nat)
  | protoFail
  | transportFail
deriving Repr, DecidableEq

inductive Event
  | net (url : Chars)
  | sleepEv
  | writeFile (path : String) (content : List Nat)
  | mkdirEv (path : String)
deriving Repr, DecidableEq

/-- One turn of the `while True` loop of `download_wnid`, entered with
`count` failures so far (so the oracle is consulted at index `count`;
the source increments `count` on every failing attempt).  For structural
recursion the loop state is carried as `remaining = retry - count`
instead of comparing `count` against `self.retry`: the exit test
`count + 1 > retry` of the source holds exactly when `remaining = 0`,
and the next turn runs with `count + 1` and `remaining - 1`.  On
exhaustion `DownloadError()` — with its default empty message — is
raised; a transport failure sleeps before the next attempt, a protocol
failure retries immediately. -/
def dlLoop (url : Chars) (oracle : Nat → Outcome) :
    Nat → Nat → List Event × Except DownloadErr (List Nat)
  | count, remaining =>
    match oracle count, remaining with
    | .success b, _ => ([.net url], .ok b)
    | .protoFail, 0 => ([.net url], .error ⟨""⟩)
    | .protoFail, r + 1 =>
      let rest := dlLoop url oracle (count + 1) r
      (.net url :: rest.1, rest.2)
    | .transportFail, 0 => ([.net url], .error ⟨""⟩)
    | .transportFail, r + 1 =>
      let rest := dlLoop url oracle (count + 1) r
      (.net url :: .sleepEv :: rest.1, rest.2)

/-- `ImagenetDownloader.download_wnid(url)` with `self.retry = retry`:
the loop starts at `count = 0`, i.e. `remaining = retry`. -/
def download_wnid (url : Chars) (oracle : Nat → Outcome) (retry : Nat) :
    List Event × Except DownloadErr (List Nat) :=
  dlLoop url oracle 0 retry

/-! ### The orchestrator `get_wnid` / `get_wnids`

State: the set of existing directories and the file contents, with
`os.path.isfile(p)` as definedness of `fs p`.  Opening a file for writing
fails (Python `FileNotFoundError`, an `OSError`) when the parent
directory does not exist; `os.mkdir("")` likewise raises.  Errors end the
run, as uncaught exceptions do in the source. -/

structure Config where
  path : String
  retry : Nat
  synset_original_url : String
  username : String
  accesskey : String

structure St where
  dirs : List String
  fs : String → Option (List Nat)

inductive RunErr
  | download (e : DownloadErr)
  | writeError (path : String)
  | mkdirError (path : String)
deriving Repr, DecidableEq

/-- POSIX `os.path.join(a, b)` for one component, at character level
(`b.startswith('/')` is "first character `/`", `a.endswith('/')` is
"last character `/`"): an absolute `b` wins; otherwise concatenate,
inserting `/` unless `a` is empty or already ends in one. -/
def ospjCh (a b : Chars) : Chars :=
  if b.head? = some '/' then b
  else if a = [] ∨ a.getLast? = some '/' then a ++ b
  else a ++ '/' :: b

def ospj (a b : String) : String := (ospjCh a.data b.data).asString

/-- Python `str.strip()` with no argument: remove leading and trailing
whitespace.  Modelled with `Char.isWhitespace` (space, tab, CR, LF);
the wider Unicode whitespace set Python also strips plays no role for
manifest identifiers. -/
def pyStrip (s : String) : String :=
  (((s.data.dropWhile Char.isWhitespace).reverse.dropWhile
      Char.isWhitespace).reverse).asString

/-- POSIX `os.path.dirname`: the part up to the last `/`, with trailing
slashes stripped unless the result is all slashes. -/
def dirnameCh (p : Chars) : Chars :=
  let head := (p.reverse.dropWhile fun c => !(c == '/')).reverse
  if head ≠ [] ∧ head.any fun c => !(c == '/') then
    (head.reverse.dropWhile (· == '/')).reverse
  else head

def dirname (p : String) : String := (dirnameCh p.data).asString

/-- The output file path of `get_wnid`:
`os.path.join(self.path, wnid + ".tar")`. -/
def outPath (cfg : Config) (wnid : String) : String :=
  ospj cfg.path (wnid ++ ".tar")

/-- The params dict of `get_wnid`, in insertion order. -/
def wnidParams (cfg : Config) (wnid release src : String) :
    List (Chars × Option Chars) :=
  [("wnid".data, some wnid.data),
   ("username".data, some cfg.username.data),
   ("accesskey".data, some cfg.accesskey.data),
   ("release".data, some release.data),
   ("src".data, some src.data)]

/-- The URL `get_wnid` fetches:
`build_url(self._synset_original_url + "?", params_extra=params)`. -/
def urlFor (cfg : Config) (wnid release src : String) : Chars :=
  build_url (cfg.synset_original_url.data ++ ['?']) []
    (wnidParams cfg wnid release src)

/-- `ImagenetDownloader.get_wnid(wnid, release, src)`: skip when the
output file exists (log only — no network, no write); otherwise build
the URL, fetch, and write the returned bytes; return the output path. -/
def get_wnid (cfg : Config) (oracle : Chars → Nat → Outcome) (st : St)
    (wnid release src : String) :
    St × List Event × Except RunErr String :=
  let filename := outPath cfg wnid
  if (st.fs filename).isSome then
    (st, [], .ok filename)
  else
    let url := urlFor cfg wnid release src
    match download_wnid url (oracle url) cfg.retry with
    | (evs, .error e) => (st, evs, .error (.download e))
    | (evs, .ok content) =>
      if dirname filename ∈ st.dirs then
        ({ st with fs := fun p => if p = filename then some content else st.fs p },
         evs ++ [.writeFile filename content], .ok filename)
      else (st, evs, .error (.writeError filename))

/-- The manifest loop of `get_wnids`: every line whose `strip()` is
nonempty is processed with `get_wnid` (the source strips the decoded
line; `pyStrip` plays the role of `strip()`); an exception aborts
the remaining lines. -/
def processLines (cfg : Config) (oracle : Chars → Nat → Outcome)
    (release src : String) : List String → St →
    St × List Event × Except RunErr Unit
  | [], st => (st, [], .ok ())
  | line :: rest, st =>
    if pyStrip line ≠ "" then
      match get_wnid cfg oracle st (pyStrip line) release src with
      | (st1, evs, .error e) => (st1, evs, .error e)
      | (st1, evs, .ok _) =>
        let r := processLines cfg oracle release src rest st1
        (r.1, evs ++ r.2.1, r.2.2)
    else processLines cfg oracle release src rest st

/-- `ImagenetDownloader.get_wnids(filename, release, src)` with the
manifest given as its list of lines.  `if not self.path:
os.mkdir(os.path.join(self.path))` attempts a directory creation only
for a falsy (empty) path — and `os.mkdir("")` raises
`FileNotFoundError`; for a nonempty path it only logs. -/
def get_wnids (cfg : Config) (oracle : Chars → Nat → Outcome) (st : St)
    (manifest : List String) (release src : String) :
    St × List Event × Except RunErr Unit :=
  if cfg.path = "" then (st, [.mkdirEv ""], .error (.mkdirError ""))
  else processLines cfg oracle release src manifest st

/-! ### Event counting -/

def countNet (evs : List Event) : Nat :=
  evs.countP fun e => match e with | .net _ => true | _ => false

def countSleep (evs : List Event) : Nat :=
  evs.countP fun e => match e with | .sleepEv => true | _ => false

/-! ### The retry loop -/

theorem dlLoop_transport (url : Chars) (oracle : Nat → Outcome)
    (h : ∀ n, oracle n = .transportFail) :
    ∀ remaining count,
      dlLoop url oracle count remaining =
        ((List.replicate remaining [Event.net url, Event.sleepEv]).flatten
            ++ [Event.net url],
         .error ⟨""⟩) := by
  intro remaining
  induction remaining with
  | zero =>
    intro count
    rw [dlLoop.eq_def]
    simp only [h]
    rfl
  | succ r ih =>
    intro count
    rw [dlLoop.eq_def]
    simp only [h]
    rw [ih (count + 1)]
    simp [List.replicate_succ]

theorem dlLoop_proto (url : Chars) (oracle : Nat → Outcome)
    (h : ∀ n, oracle n = .protoFail) :
    ∀ remaining count,
      dlLoop url oracle count remaining =
        (List.replicate (remaining + 1) (Event.net url), .error ⟨""⟩) := by
  intro remaining
  induction remaining with
  | zero =>
    intro count
    rw [dlLoop.eq_def]
    simp only [h]
    rfl
  | succ r ih =>
    intro count
    rw [dlLoop.eq_def]
    simp only [h]
    rw [ih (count + 1)]
    simp [List.replicate_succ]

theorem countNet_transport_trace (u : Chars) (N : Nat) :
    countNet ((List.replicate N [Event.net u, Event.sleepEv]).flatten
        ++ [Event.net u]) = N + 1 := by
  induction N with
  | zero => simp [countNet]
  | succ n ih =>
    simp [countNet, List.replicate_succ, List.countP_cons,
      List.countP_append] at *

theorem countSleep_transport_trace (u : Chars) (N : Nat) :
    countSleep ((List.replicate N [Event.net u, Event.sleepEv]).flatten
        ++ [Event.net u]) = N := by
  induction N with
  | zero => simp [countSleep]
  | succ n ih =>
    simp [countSleep, List.replicate_succ, List.countP_cons,
      List.countP_append] at *

theorem countNet_replicate (u : Chars) (N : Nat) :
    countNet (List.replicate N (Event.net u)) = N := by
  induction N with
  | zero => simp [countNet]
  | succ n ih =>
    simp [countNet, List.replicate_succ, List.countP_cons] at *
    exact ih

theorem countSleep_replicate_net (u : Chars) (N : Nat) :
    countSleep (List.replicate N (Event.net u)) = 0 := by
  induction N with
  | zero => simp [countSleep]
  | succ n ih =>
    simp [countSleep, List.replicate_succ, List.countP_cons] at *

/-- C2: with max retries `N`, a transport that always fails makes
exactly `N + 1` GET attempts, sleeps exactly `N` times — once after each
failed attempt except the last, as the trace equality shows — and then
raises `DownloadError`. -/
theorem download_wnid_transport_retries (url : Chars)
    (oracle : Nat → Outcome) (N : Nat)
    (h : ∀ n, oracle n = Outcome.transportFail) :
    download_wnid url oracle N =
      ((List.replicate N [Event.net url, Event.sleepEv]).flatten
          ++ [Event.net url],
       Except.error ⟨""⟩)
    ∧ countNet (download_wnid url oracle N).1 = N + 1
    ∧ countSleep (download_wnid url oracle N).1 = N := by
  have htr := dlLoop_transport url oracle h N 0
  refine ⟨htr, ?_, ?_⟩
  · rw [download_wnid, htr]
    exact countNet_transport_trace url N
  · rw [download_wnid, htr]
    exact countSleep_transport_trace url N

theorem download_wnid_transport_retries_witness :
    (∀ n : Nat, (fun _ => Outcome.transportFail) n = Outcome.transportFail)
    ∧ download_wnid "u".data (fun _ => Outcome.transportFail) 2 =
        ([Event.net "u".data, Event.sleepEv, Event.net "u".data,
          Event.sleepEv, Event.net "u".data],
         Except.error ⟨""⟩) := by
  refine ⟨fun n => rfl, ?_⟩
  have h := (download_wnid_transport_retries "u".data
    (fun _ => Outcome.transportFail) 2 (fun n => rfl)).1
  rw [h]
  rfl

/-- C3: with max retries `N`, an always-failing protocol-level response
makes exactly `N + 1` GET attempts with zero sleeps and then raises
`DownloadError`. -/
theorem download_wnid_protocol_retries (url : Chars)
    (oracle : Nat → Outcome) (N : Nat)
    (h : ∀ n, oracle n = Outcome.protoFail) :
    download_wnid url oracle N =
      (List.replicate (N + 1) (Event.net url), Except.error ⟨""⟩)
    ∧ countNet (download_wnid url oracle N).1 = N + 1
    ∧ countSleep (download_wnid url oracle N).1 = 0 := by
  have hpr := dlLoop_proto url oracle h N 0
  refine ⟨hpr, ?_, ?_⟩
  · rw [download_wnid, hpr]
    exact countNet_replicate url (N + 1)
  · rw [download_wnid, hpr]
    exact countSleep_replicate_net url (N + 1)

theorem download_wnid_protocol_retries_witness :
    (∀ n : Nat, (fun _ => Outcome.protoFail) n = Outcome.protoFail)
    ∧ download_wnid "u".data (fun _ => Outcome.protoFail) 2 =
        (List.replicate 3 (Event.net "u".data), Except.error ⟨""⟩) := by
  refine ⟨fun n => rfl, ?_⟩
  exact (download_wnid_protocol_retries "u".data
    (fun _ => Outcome.protoFail) 2 (fun n => rfl)).1

/-! ### What the raised `DownloadError` carries -/

theorem dlLoop_error_message (url : Chars) (oracle : Nat → Outcome) :
    ∀ remaining count e,
      (dlLoop url oracle count remaining).2 = .error e → e = ⟨""⟩ := by
  intro remaining
  induction remaining with
  | zero =>
    intro count e hrun
    rw [dlLoop.eq_def] at hrun
    rcases ho : oracle count with b | _ | _ <;> simp only [ho] at hrun
    · simp at hrun
    · exact (Except.error.inj hrun).symm
    · exact (Except.error.inj hrun).symm
  | succ r ih =>
    intro count e hrun
    rw [dlLoop.eq_def] at hrun
    rcases ho : oracle count with b | _ | _ <;> simp only [ho] at hrun
    · simp at hrun
    · exact ih (count + 1) e hrun
    · exact ih (count + 1) e hrun

/-- C8 (amended): when the retry budget is exhausted, the raised
`DownloadError` carries only the constructor default message `""` — it
does not wrap the root cause and does not identify whether the final
failure was protocol-level or transport-level. -/
theorem download_wnid_error_message_empty (url : Chars)
    (oracle : Nat → Outcome) (retry : Nat) (e : DownloadErr)
    (h : (download_wnid url oracle retry).2 = .error e) :
    e = ⟨""⟩ :=
  dlLoop_error_message url oracle retry 0 e h

theorem download_wnid_error_message_empty_witness :
    (download_wnid "u".data (fun _ => Outcome.protoFail) 1).2 =
        Except.error ⟨""⟩
    ∧ (⟨""⟩ : DownloadErr) = ⟨""⟩ := by
  refine ⟨rfl, ?_⟩
  exact download_wnid_error_message_empty "u".data
    (fun _ => Outcome.protoFail) 1 ⟨""⟩ rfl

/-- C8 is refuted as stated: a run whose final root cause is a protocol
failure and a run whose final root cause is a transport failure raise
the very same `DownloadError` value — `DownloadError()` with the default
empty message — so the exception identifies neither a wrapped cause nor
the failure kind. -/
theorem download_wnid_no_root_cause_counterexample :
    download_wnid "u".data (fun _ => Outcome.protoFail) 0 =
      ([Event.net "u".data], Except.error ⟨""⟩)
    ∧ download_wnid "u".data (fun _ => Outcome.transportFail) 0 =
      ([Event.net "u".data], Except.error ⟨""⟩)
    ∧ (download_wnid "u".data (fun _ => Outcome.protoFail) 0).2 =
      (download_wnid "u".data (fun _ => Outcome.transportFail) 0).2 := by
  exact ⟨rfl, rfl, rfl⟩

/-! ### Step lemmas for `get_wnid` -/

theorem get_wnid_skip_eq (cfg : Config) (oracle : Chars → Nat → Outcome)
    (st : St) (wnid release src : String)
    (h : (st.fs (outPath cfg wnid)).isSome = true) :
    get_wnid cfg oracle st wnid release src = (st, [], .ok (outPath cfg wnid)) := by
  simp [get_wnid, h]

theorem get_wnid_dl_error_eq (cfg : Config) (oracle : Chars → Nat → Outcome)
    (st : St) (wnid release src : String) (evs : List Event) (e : DownloadErr)
    (h : (st.fs (outPath cfg wnid)).isSome = false)
    (hdl : download_wnid (urlFor cfg wnid release src)
        (oracle (urlFor cfg wnid release src)) cfg.retry = (evs, .error e)) :
    get_wnid cfg oracle st wnid release src = (st, evs, .error (.download e)) := by
  simp [get_wnid, h, hdl]

theorem get_wnid_write_eq (cfg : Config) (oracle : Chars → Nat → Outcome)
    (st : St) (wnid release src : String) (evs : List Event) (b : List Nat)
    (h : (st.fs (outPath cfg wnid)).isSome = false)
    (hdir : dirname (outPath cfg wnid) ∈ st.dirs)
    (hdl : download_wnid (urlFor cfg wnid release src)
        (oracle (urlFor cfg wnid release src)) cfg.retry = (evs, .ok b)) :
    get_wnid cfg oracle st wnid release src =
      ({ st with fs := fun p => if p = outPath cfg wnid then some b else st.fs p },
       evs ++ [.writeFile (outPath cfg wnid) b], .ok (outPath cfg wnid)) := by
  simp [get_wnid, h, hdl, hdir]

theorem get_wnid_write_fail_eq (cfg : Config) (oracle : Chars → Nat → Outcome)
    (st : St) (wnid release src : String) (evs : List Event) (b : List Nat)
    (h : (st.fs (outPath cfg wnid)).isSome = false)
    (hdir : dirname (outPath cfg wnid) ∉ st.dirs)
    (hdl : download_wnid (urlFor cfg wnid release src)
        (oracle (urlFor cfg wnid release src)) cfg.retry = (evs, .ok b)) :
    get_wnid cfg oracle st wnid release src =
      (st, evs, .error (.writeError (outPath cfg wnid))) := by
  simp [get_wnid, h, hdl, hdir]

theorem get_wnid_fs_preserve (cfg : Config) (oracle : Chars → Nat → Outcome)
    (st : St) (wnid release src : String) (p : String) (b : List Nat)
    (hp : st.fs p = some b) :
    (get_wnid cfg oracle st wnid release src).1.fs p = some b := by
  by_cases h : (st.fs (outPath cfg wnid)).isSome = true
  · rw [get_wnid_skip_eq cfg oracle st wnid release src h]
    exact hp
  · have hf : (st.fs (outPath cfg wnid)).isSome = false := by
      simpa using h
    rcases hdl : download_wnid (urlFor cfg wnid release src)
        (oracle (urlFor cfg wnid release src)) cfg.retry with ⟨evs, res⟩
    rcases res with e | c
    · rw [get_wnid_dl_error_eq cfg oracle st wnid release src evs e hf hdl]
      exact hp
    · by_cases hdir : dirname (outPath cfg wnid) ∈ st.dirs
      · rw [get_wnid_write_eq cfg oracle st wnid release src evs c hf hdir hdl]
        have hpe : p ≠ outPath cfg wnid := by
          intro heq
          rw [← heq, hp] at hf
          simp at hf
        simp [hpe, hp]
      · rw [get_wnid_write_fail_eq cfg oracle st wnid release src evs c hf hdir hdl]
        exact hp

theorem get_wnid_dirs_preserve (cfg : Config) (oracle : Chars → Nat → Outcome)
    (st : St) (wnid release src : String) :
    (get_wnid cfg oracle st wnid release src).1.dirs = st.dirs := by
  by_cases h : (st.fs (outPath cfg wnid)).isSome = true
  · rw [get_wnid_skip_eq cfg oracle st wnid release src h]
  · have hf : (st.fs (outPath cfg wnid)).isSome = false := by
      simpa using h
    rcases hdl : download_wnid (urlFor cfg wnid release src)
        (oracle (urlFor cfg wnid release src)) cfg.retry with ⟨evs, res⟩
    rcases res with e | c
    · rw [get_wnid_dl_error_eq cfg oracle st wnid release src evs e hf hdl]
    · by_cases hdir : dirname (outPath cfg wnid) ∈ st.dirs
      · rw [get_wnid_write_eq cfg oracle st wnid release src evs c hf hdir hdl]
      · rw [get_wnid_write_fail_eq cfg oracle st wnid release src evs c hf hdir hdl]

theorem dlLoop_events_net_or_sleep (url : Chars) (oracle : Nat → Outcome) :
    ∀ remaining count ev, ev ∈ (dlLoop url oracle count remaining).1 →
      ev = Event.net url ∨ ev = Event.sleepEv := by
  intro remaining
  induction remaining with
  | zero =>
    intro count ev hev
    rw [dlLoop.eq_def] at hev
    rcases ho : oracle count with b | _ | _ <;> simp only [ho] at hev <;>
      simp at hev <;> simp [hev]
  | succ r ih =>
    intro count ev hev
    rw [dlLoop.eq_def] at hev
    rcases ho : oracle count with b | _ | _ <;> simp only [ho] at hev
    · simp at hev
      simp [hev]
    · rcases List.mem_cons.1 hev with h1 | h1
      · simp [h1]
      · exact ih (count + 1) ev h1
    · rcases List.mem_cons.1 hev with h1 | h1
      · simp [h1]
      · rcases List.mem_cons.1 h1 with h2 | h2
        · simp [h2]
        · exact ih (count + 1) ev h2

theorem get_wnid_no_mkdir (cfg : Config) (oracle : Chars → Nat → Outcome)
    (st : St) (wnid release src : String) (p : String) :
    Event.mkdirEv p ∉ (get_wnid cfg oracle st wnid release src).2.1 := by
  by_cases h : (st.fs (outPath cfg wnid)).isSome = true
  · rw [get_wnid_skip_eq cfg oracle st wnid release src h]
    simp
  · have hf : (st.fs (outPath cfg wnid)).isSome = false := by
      simpa using h
    rcases hdl : download_wnid (urlFor cfg wnid release src)
        (oracle (urlFor cfg wnid release src)) cfg.retry with ⟨evs, res⟩
    have hevs : ∀ ev ∈ evs, ev = Event.net (urlFor cfg wnid release src) ∨
        ev = Event.sleepEv := by
      intro ev hev
      apply dlLoop_events_net_or_sleep (urlFor cfg wnid release src)
        (oracle (urlFor cfg wnid release src)) cfg.retry 0 ev
      rw [← download_wnid, hdl]
      exact hev
    rcases res with e | c
    · rw [get_wnid_dl_error_eq cfg oracle st wnid release src evs e hf hdl]
      intro hmem
      rcases hevs _ hmem with h1 | h1 <;> simp at h1
    · by_cases hdir : dirname (outPath cfg wnid) ∈ st.dirs
      · rw [get_wnid_write_eq cfg oracle st wnid release src evs c hf hdir hdl]
        intro hmem
        simp only [List.mem_append] at hmem
        rcases hmem with hm | hm
        · rcases hevs _ hm with h1 | h1 <;> simp at h1
        · simp at hm
      · rw [get_wnid_write_fail_eq cfg oracle st wnid release src evs c hf hdir hdl]
        intro hmem
        rcases hevs _ hmem with h1 | h1 <;> simp at h1

/-! ### Induction lemmas for the manifest loop -/

theorem processLines_fs_preserve (cfg : Config) (oracle : Chars → Nat → Outcome)
    (release src : String) :
    ∀ (lines : List String) (st : St) (p : String) (b : List Nat),
      st.fs p = some b →
      (processLines cfg oracle release src lines st).1.fs p = some b := by
  intro lines
  induction lines with
  | nil =>
    intro st p b hp
    simpa [processLines] using hp
  | cons line rest ih =>
    intro st p b hp
    by_cases hne : pyStrip line ≠ ""
    · rcases hg : get_wnid cfg oracle st (pyStrip line) release src with ⟨st1, evs, res⟩
      have hst1 : st1.fs p = some b := by
        have hh := get_wnid_fs_preserve cfg oracle st (pyStrip line) release src p b hp
        rw [hg] at hh
        exact hh
      rcases res with e | x
      · simp only [processLines, if_pos hne, hg]
        exact hst1
      · simp only [processLines, if_pos hne, hg]
        exact ih st1 p b hst1
    · simp only [processLines, if_neg hne]
      exact ih st p b hp

theorem processLines_dirs_preserve (cfg : Config) (oracle : Chars → Nat → Outcome)
    (release src : String) :
    ∀ (lines : List String) (st : St),
      (processLines cfg oracle release src lines st).1.dirs = st.dirs := by
  intro lines
  induction lines with
  | nil =>
    intro st
    simp [processLines]
  | cons line rest ih =>
    intro st
    by_cases hne : pyStrip line ≠ ""
    · rcases hg : get_wnid cfg oracle st (pyStrip line) release src with ⟨st1, evs, res⟩
      have hst1 : st1.dirs = st.dirs := by
        have hh := get_wnid_dirs_preserve cfg oracle st (pyStrip line) release src
        rw [hg] at hh
        exact hh
      rcases res with e | x
      · simp only [processLines, if_pos hne, hg]
        exact hst1
      · simp only [processLines, if_pos hne, hg]
        rw [ih st1]
        exact hst1
    · simp only [processLines, if_neg hne]
      exact ih st

theorem processLines_no_mkdir (cfg : Config) (oracle : Chars → Nat → Outcome)
    (release src : String) :
    ∀ (lines : List String) (st : St) (p : String),
      Event.mkdirEv p ∉ (processLines cfg oracle release src lines st).2.1 := by
  intro lines
  induction lines with
  | nil =>
    intro st p
    simp [processLines]
  | cons line rest ih =>
    intro st p
    by_cases hne : pyStrip line ≠ ""
    · rcases hg : get_wnid cfg oracle st (pyStrip line) release src with ⟨st1, evs, res⟩
      have hevs : Event.mkdirEv p ∉ evs := by
        have hh := get_wnid_no_mkdir cfg oracle st (pyStrip line) release src p
        rw [hg] at hh
        exact hh
      rcases res with e | x
      · simp only [processLines, if_pos hne, hg]
        exact hevs
      · simp only [processLines, if_pos hne, hg]
        intro hmem
        simp only [List.mem_append] at hmem
        rcases hmem with hm | hm
        · exact hevs hm
        · exact ih st1 p hm
    · simp only [processLines, if_neg hne]
      exact ih st p

theorem processLines_no_dirs_no_write (cfg : Config)
    (oracle : Chars → Nat → Outcome) (release src : String) :
    ∀ (lines : List String) (st : St),
      (∀ w : String, dirname (outPath cfg w) ∉ st.dirs) →
      (processLines cfg oracle release src lines st).1.fs = st.fs
      ∧ ((processLines cfg oracle release src lines st).2.2 = .ok () →
          ∀ line ∈ lines, pyStrip line ≠ "" →
            (st.fs (outPath cfg (pyStrip line))).isSome = true) := by
  intro lines
  induction lines with
  | nil =>
    intro st hnd
    refine ⟨by simp [processLines], ?_⟩
    intro hok line hline
    simp at hline
  | cons line rest ih =>
    intro st hnd
    by_cases hne : pyStrip line ≠ ""
    · by_cases h : (st.fs (outPath cfg (pyStrip line))).isSome = true
      · rcases ih st hnd with ⟨ih1, ih2⟩
        simp only [processLines, if_pos hne,
          get_wnid_skip_eq cfg oracle st (pyStrip line) release src h]
        refine ⟨ih1, ?_⟩
        intro hok l hl hlt
        rcases List.mem_cons.1 hl with rfl | hl2
        · exact h
        · exact ih2 hok l hl2 hlt
      · have hf : (st.fs (outPath cfg (pyStrip line))).isSome = false := by
          simpa using h
        rcases hdl : download_wnid (urlFor cfg (pyStrip line) release src)
            (oracle (urlFor cfg (pyStrip line) release src)) cfg.retry with ⟨evs, res⟩
        rcases res with e | c
        · simp only [processLines, if_pos hne,
            get_wnid_dl_error_eq cfg oracle st (pyStrip line) release src evs e hf hdl]
          simp
        · simp only [processLines, if_pos hne,
            get_wnid_write_fail_eq cfg oracle st (pyStrip line) release src evs c hf
              (hnd (pyStrip line)) hdl]
          simp
    · simp only [processLines, if_neg hne]
      rcases ih st hnd with ⟨ih1, ih2⟩
      refine ⟨ih1, ?_⟩
      intro hok l hl hlt
      rcases List.mem_cons.1 hl with rfl | hl2
      · exact absurd hlt hne
      · exact ih2 hok l hl2 hlt

theorem get_wnids_nonempty_path (cfg : Config) (oracle : Chars → Nat → Outcome)
    (st : St) (manifest : List String) (release src : String)
    (h : cfg.path ≠ "") :
    get_wnids cfg oracle st manifest release src =
      processLines cfg oracle release src manifest st := by
  simp [get_wnids, h]

/-! ### The orchestrator claims -/

/-- C1: when the output file `<output_dir>/<wnid>.tar` already exists,
`get_wnid` performs no network call and no write — its event trace is
empty and the state is returned unchanged, so the existing bytes are
untouched — and over any whole `get_wnids` run an existing output record
is never overwritten: every file present before the run still holds the
same bytes afterwards. -/
theorem get_wnid_skip_preserves_existing (cfg : Config)
    (oracle : Chars → Nat → Outcome) (st : St) (wnid release src : String)
    (h : (st.fs (outPath cfg wnid)).isSome = true) :
    get_wnid cfg oracle st wnid release src = (st, [], .ok (outPath cfg wnid))
    ∧ ∀ (manifest : List String) (p : String) (b : List Nat),
        st.fs p = some b →
        (get_wnids cfg oracle st manifest release src).1.fs p = some b := by
  refine ⟨get_wnid_skip_eq cfg oracle st wnid release src h, ?_⟩
  intro manifest p b hp
  by_cases hpath : cfg.path = ""
  · simp only [get_wnids, if_pos hpath]
    exact hp
  · rw [get_wnids_nonempty_path cfg oracle st manifest release src hpath]
    exact processLines_fs_preserve cfg oracle release src manifest st p b hp

theorem get_wnid_skip_preserves_existing_witness :
    ((St.mk ["out"] fun p => if p = "out/a.tar" then some [7] else none).fs
        (outPath ⟨"out", 0, "http://e/s", "u", "k"⟩ "a")).isSome = true
    ∧ get_wnid ⟨"out", 0, "http://e/s", "u", "k"⟩ (fun _ _ => Outcome.protoFail)
        (St.mk ["out"] fun p => if p = "out/a.tar" then some [7] else none)
        "a" "latest" "stanford" =
      (St.mk ["out"] fun p => if p = "out/a.tar" then some [7] else none, [],
       .ok (outPath ⟨"out", 0, "http://e/s", "u", "k"⟩ "a")) := by
  refine ⟨rfl, ?_⟩
  exact (get_wnid_skip_preserves_existing ⟨"out", 0, "http://e/s", "u", "k"⟩
    (fun _ _ => Outcome.protoFail)
    (St.mk ["out"] fun p => if p = "out/a.tar" then some [7] else none)
    "a" "latest" "stanford" rfl).1

/-- C7: when the fetch succeeds, `get_wnid` writes exactly the byte
sequence returned by the HTTP layer to `<output_dir>/<wnid>.tar` (given
an existing output directory), and re-reading that path afterwards
yields exactly those bytes. -/
theorem get_wnid_roundtrip (cfg : Config) (oracle : Chars → Nat → Outcome)
    (st : St) (wnid release src : String) (evs : List Event) (b : List Nat)
    (hnot : (st.fs (outPath cfg wnid)).isSome = false)
    (hdir : dirname (outPath cfg wnid) ∈ st.dirs)
    (hdl : download_wnid (urlFor cfg wnid release src)
        (oracle (urlFor cfg wnid release src)) cfg.retry = (evs, .ok b)) :
    get_wnid cfg oracle st wnid release src =
      ({ st with fs := fun p => if p = outPath cfg wnid then some b else st.fs p },
       evs ++ [.writeFile (outPath cfg wnid) b], .ok (outPath cfg wnid))
    ∧ (get_wnid cfg oracle st wnid release src).1.fs (outPath cfg wnid)
        = some b := by
  have h1 := get_wnid_write_eq cfg oracle st wnid release src evs b hnot hdir hdl
  refine ⟨h1, ?_⟩
  rw [h1]
  simp

theorem get_wnid_roundtrip_witness :
    (get_wnid ⟨"out", 1, "http://e/s", "u", "k"⟩
        (fun _ _ => Outcome.success [9, 8, 7]) (St.mk ["out"] fun _ => none)
        "n01440764" "latest" "stanford").1.fs
      (outPath ⟨"out", 1, "http://e/s", "u", "k"⟩ "n01440764")
      = some [9, 8, 7] := by
  exact (get_wnid_roundtrip ⟨"out", 1, "http://e/s", "u", "k"⟩
    (fun _ _ => Outcome.success [9, 8, 7]) (St.mk ["out"] fun _ => none)
    "n01440764" "latest" "stanford"
    [Event.net (urlFor ⟨"out", 1, "http://e/s", "u", "k"⟩ "n01440764"
      "latest" "stanford")]
    [9, 8, 7] rfl (by decide) rfl).2

/-- C9: every normal return of `get_wnid` — in the skip branch as in the
download branch — is the same output path `outPath`, which for the usual
configuration (nonempty output directory without a trailing slash,
identifier without a leading slash) is literally
`<output_dir>/<identifier>.tar`. -/
theorem get_wnid_return_value (cfg : Config) (oracle : Chars → Nat → Outcome)
    (st : St) (wnid release src : String) :
    (∀ s, (get_wnid cfg oracle st wnid release src).2.2 = .ok s →
        s = outPath cfg wnid)
    ∧ (cfg.path.data ≠ [] → cfg.path.data.getLast? ≠ some '/' →
        (wnid ++ ".tar").data.head? ≠ some '/' →
        outPath cfg wnid = cfg.path ++ "/" ++ (wnid ++ ".tar")) := by
  constructor
  · intro s hs
    by_cases h : (st.fs (outPath cfg wnid)).isSome = true
    · rw [get_wnid_skip_eq cfg oracle st wnid release src h] at hs
      exact (Except.ok.inj hs).symm
    · have hf : (st.fs (outPath cfg wnid)).isSome = false := by
        simpa using h
      rcases hdl : download_wnid (urlFor cfg wnid release src)
          (oracle (urlFor cfg wnid release src)) cfg.retry with ⟨evs, res⟩
      rcases res with e | c
      · rw [get_wnid_dl_error_eq cfg oracle st wnid release src evs e hf hdl] at hs
        simp at hs
      · by_cases hdir : dirname (outPath cfg wnid) ∈ st.dirs
        · rw [get_wnid_write_eq cfg oracle st wnid release src evs c hf hdir hdl]
            at hs
          exact (Except.ok.inj hs).symm
        · rw [get_wnid_write_fail_eq cfg oracle st wnid release src evs c hf hdir
            hdl] at hs
          simp at hs
  · intro h1 h2 h3
    have h4 : ¬ (cfg.path.data = [] ∨ cfg.path.data.getLast? = some '/') := by
      rintro (h5 | h5)
      · exact h1 h5
      · exact h2 h5
    rw [outPath, ospj, ospjCh, if_neg h3, if_neg h4]
    refine String.ext ?_
    simp
    rfl

theorem get_wnid_return_value_witness :
    outPath ⟨"out", 0, "http://e/s", "u", "k"⟩ "a"
      = "out" ++ "/" ++ ("a" ++ ".tar") := by
  exact (get_wnid_return_value ⟨"out", 0, "http://e/s", "u", "k"⟩
    (fun _ _ => Outcome.protoFail) (St.mk [] fun _ => none)
    "a" "latest" "stanford").2 (by decide) (by decide) (by decide)

/-- C6: for a three-identifier manifest of pending identifiers where the
second fetch exhausts its retries, the run has written the first
identifier's output file with the fetched bytes, has not written the
third identifier's file, and the `DownloadError` propagates out of
`get_wnids` uncaught. -/
theorem get_wnids_halts_on_failure (cfg : Config)
    (oracle : Chars → Nat → Outcome) (st : St)
    (w1 w2 w3 release src : String) (b1 : List Nat)
    (evs1 evs2 : List Event) (e2 : DownloadErr)
    (hpath : cfg.path ≠ "")
    (ht1 : pyStrip w1 = w1) (ht2 : pyStrip w2 = w2)
    (hn1 : w1 ≠ "") (hn2 : w2 ≠ "")
    (h1 : st.fs (outPath cfg w1) = none)
    (h2 : st.fs (outPath cfg w2) = none)
    (h3 : st.fs (outPath cfg w3) = none)
    (hne21 : outPath cfg w2 ≠ outPath cfg w1)
    (hne31 : outPath cfg w3 ≠ outPath cfg w1)
    (hdir : dirname (outPath cfg w1) ∈ st.dirs)
    (hdl1 : download_wnid (urlFor cfg w1 release src)
        (oracle (urlFor cfg w1 release src)) cfg.retry = (evs1, .ok b1))
    (hdl2 : download_wnid (urlFor cfg w2 release src)
        (oracle (urlFor cfg w2 release src)) cfg.retry = (evs2, .error e2)) :
    get_wnids cfg oracle st [w1, w2, w3] release src =
      ({ st with fs := fun p => if p = outPath cfg w1 then some b1 else st.fs p },
       (evs1 ++ [.writeFile (outPath cfg w1) b1]) ++ evs2,
       .error (.download e2))
    ∧ (get_wnids cfg oracle st [w1, w2, w3] release src).1.fs (outPath cfg w1)
        = some b1
    ∧ (get_wnids cfg oracle st [w1, w2, w3] release src).1.fs (outPath cfg w3)
        = none := by
  have hn1t : pyStrip w1 ≠ "" := by rw [ht1]; exact hn1
  have hn2t : pyStrip w2 ≠ "" := by rw [ht2]; exact hn2
  have hw1 : get_wnid cfg oracle st w1 release src =
      ({ st with fs := fun p => if p = outPath cfg w1 then some b1 else st.fs p },
       evs1 ++ [.writeFile (outPath cfg w1) b1], .ok (outPath cfg w1)) :=
    get_wnid_write_eq cfg oracle st w1 release src evs1 b1 (by rw [h1]; rfl)
      hdir hdl1
  have hw2 : get_wnid cfg oracle
      { st with fs := fun p => if p = outPath cfg w1 then some b1 else st.fs p }
      w2 release src =
      ({ st with fs := fun p => if p = outPath cfg w1 then some b1 else st.fs p },
       evs2, .error (.download e2)) :=
    get_wnid_dl_error_eq cfg oracle _ w2 release src evs2 e2
      (by simp [hne21, h2]) hdl2
  have hmain : get_wnids cfg oracle st [w1, w2, w3] release src =
      ({ st with fs := fun p => if p = outPath cfg w1 then some b1 else st.fs p },
       (evs1 ++ [.writeFile (outPath cfg w1) b1]) ++ evs2,
       .error (.download e2)) := by
    rw [get_wnids_nonempty_path cfg oracle st [w1, w2, w3] release src hpath]
    simp only [processLines, ht1, ht2, if_pos hn1t, if_pos hn2t, if_pos hn1,
      if_pos hn2, hw1, hw2]
  refine ⟨hmain, ?_, ?_⟩
  · rw [hmain]
    simp
  · rw [hmain]
    simp [hne31, h3]

theorem get_wnids_halts_on_failure_witness :
    (get_wnids ⟨"out", 0, "http://e/s", "u", "k"⟩
        (fun url _ => if url = urlFor ⟨"out", 0, "http://e/s", "u", "k"⟩
            "b" "latest" "stanford" then Outcome.protoFail
          else Outcome.success [5])
        (St.mk ["out"] fun _ => none) ["a", "b", "c"] "latest" "stanford").1.fs
      (outPath ⟨"out", 0, "http://e/s", "u", "k"⟩ "a") = some [5]
    ∧ (get_wnids ⟨"out", 0, "http://e/s", "u", "k"⟩
        (fun url _ => if url = urlFor ⟨"out", 0, "http://e/s", "u", "k"⟩
            "b" "latest" "stanford" then Outcome.protoFail
          else Outcome.success [5])
        (St.mk ["out"] fun _ => none) ["a", "b", "c"] "latest" "stanford").1.fs
      (outPath ⟨"out", 0, "http://e/s", "u", "k"⟩ "c") = none := by
  have h := get_wnids_halts_on_failure ⟨"out", 0, "http://e/s", "u", "k"⟩
    (fun url _ => if url = urlFor ⟨"out", 0, "http://e/s", "u", "k"⟩
        "b" "latest" "stanford" then Outcome.protoFail
      else Outcome.success [5])
    (St.mk ["out"] fun _ => none) "a" "b" "c" "latest" "stanford" [5]
    [Event.net (urlFor ⟨"out", 0, "http://e/s", "u", "k"⟩ "a" "latest" "stanford")]
    [Event.net (urlFor ⟨"out", 0, "http://e/s", "u", "k"⟩ "b" "latest" "stanford")]
    ⟨""⟩ (by decide) rfl rfl (by decide) (by decide) rfl rfl rfl (by decide)
    (by decide) (by decide) rfl rfl
  exact ⟨h.2.1, h.2.2⟩

/-- C10: for a nonempty configured path, `get_wnids` never attempts a
directory creation — no `mkdir` event occurs and the set of directories
is unchanged (`os.mkdir` is reached only for an empty, falsy path) — so
when no output parent directory exists before the run nothing is ever
written: the file contents are unchanged and a successful run is only
possible with every nonblank manifest line already present on disk. -/
theorem get_wnids_no_mkdir_on_nonempty_path (cfg : Config)
    (oracle : Chars → Nat → Outcome) (st : St) (manifest : List String)
    (release src : String) (hpath : cfg.path ≠ "") :
    (∀ p, Event.mkdirEv p ∉ (get_wnids cfg oracle st manifest release src).2.1)
    ∧ (get_wnids cfg oracle st manifest release src).1.dirs = st.dirs
    ∧ ((∀ w : String, dirname (outPath cfg w) ∉ st.dirs) →
        (get_wnids cfg oracle st manifest release src).1.fs = st.fs
        ∧ ((get_wnids cfg oracle st manifest release src).2.2 = .ok () →
            ∀ line ∈ manifest, pyStrip line ≠ "" →
              (st.fs (outPath cfg (pyStrip line))).isSome = true)) := by
  rw [get_wnids_nonempty_path cfg oracle st manifest release src hpath]
  exact ⟨processLines_no_mkdir cfg oracle release src manifest st,
         processLines_dirs_preserve cfg oracle release src manifest st,
         fun hnd =>
           processLines_no_dirs_no_write cfg oracle release src manifest st hnd⟩

theorem get_wnids_no_mkdir_on_nonempty_path_witness :
    (get_wnids ⟨"out", 0, "http://e/s", "u", "k"⟩
        (fun _ _ => Outcome.success [1]) (St.mk [] fun _ => none)
        ["w"] "latest" "stanford").1.fs "out/w.tar" = none := by
  have h := (get_wnids_no_mkdir_on_nonempty_path
    ⟨"out", 0, "http://e/s", "u", "k"⟩ (fun _ _ => Outcome.success [1])
    (St.mk [] fun _ => none) ["w"] "latest" "stanford" (by decide)).2.2
    (fun w => List.not_mem_nil _)
  rw [congrFun h.1 "out/w.tar"]

/-! ### List and character toolkit for the URL proofs -/

theorem takeWhile_middle {p : Char → Bool} (pre : Chars) (sep : Char)
    (rest : Chars) (hpre : ∀ c ∈ pre, p c = true) (hsep : p sep = false) :
    (pre ++ sep :: rest).takeWhile p = pre := by
  rw [List.takeWhile_append_of_pos hpre]
  simp [List.takeWhile_cons, hsep]

theorem dropWhile_middle {p : Char → Bool} (pre : Chars) (sep : Char)
    (rest : Chars) (hpre : ∀ c ∈ pre, p c = true) (hsep : p sep = false) :
    (pre ++ sep :: rest).dropWhile p = sep :: rest := by
  rw [List.dropWhile_append_of_pos hpre]
  simp [List.dropWhile_cons, hsep]

theorem takeWhile_all {p : Char → Bool} (l : Chars) (h : ∀ c ∈ l, p c = true) :
    l.takeWhile p = l := by
  induction l with
  | nil => rfl
  | cons a t ih =>
    simp only [List.takeWhile_cons, h a (by simp), if_true]
    rw [ih fun c hc => h c (by simp [hc])]

theorem dropWhile_all {p : Char → Bool} (l : Chars) (h : ∀ c ∈ l, p c = true) :
    l.dropWhile p = [] := by
  induction l with
  | nil => rfl
  | cons a t ih =>
    simp only [List.dropWhile_cons, h a (by simp), if_true]
    exact ih fun c hc => h c (by simp [hc])

theorem char_toNat_inj {a b : Char} (h : a.toNat = b.toNat) : a = b := by
  have h2 := congrArg Char.ofNat h
  rwa [Char.ofNat_toNat, Char.ofNat_toNat] at h2

set_option maxRecDepth 4096 in
theorem toNat_ofNat_small : ∀ n, n < 256 → (Char.ofNat n).toNat = n := by
  decide

theorem char_toNat_lt (c : Char) : c.toNat < 1114112 := by
  rcases c.valid with h | ⟨h1, h2⟩
  · exact Nat.lt_trans h (by decide)
  · exact h2

theorem char_eq_iff_toNat (a b : Char) : a = b ↔ a.toNat = b.toNat :=
  ⟨fun h => h ▸ rfl, char_toNat_inj⟩

theorem beq_char_eq_false {a b : Char} (h : a.toNat ≠ b.toNat) :
    (a == b) = false := by
  rw [beq_eq_false_iff_ne]
  intro he
  exact h (he ▸ rfl)

theorem unsafeChar_iff (c : Char) :
    unsafeChar c = true ↔ c.toNat = 9 ∨ c.toNat = 13 ∨ c.toNat = 10 := by
  constructor
  · intro h
    rcases Bool.or_eq_true_iff.1 h with h1 | h1
    · rcases Bool.or_eq_true_iff.1 h1 with h2 | h2
      · rw [beq_iff_eq.1 h2]
        decide
      · rw [beq_iff_eq.1 h2]
        decide
    · rw [beq_iff_eq.1 h1]
      decide
  · intro h
    rcases h with h | h | h
    · rw [show c = '\t' from char_toNat_inj (by rw [h]; decide)]
      decide
    · rw [show c = '\r' from char_toNat_inj (by rw [h]; decide)]
      decide
    · rw [show c = '\n' from char_toNat_inj (by rw [h]; decide)]
      decide

theorem isSchemeChar_iff (c : Char) :
    isSchemeChar c = true ↔
      (97 ≤ c.toNat ∧ c.toNat ≤ 122) ∨ (65 ≤ c.toNat ∧ c.toNat ≤ 90) ∨
      (48 ≤ c.toNat ∧ c.toNat ≤ 57) ∨ c.toNat = 43 ∨ c.toNat = 45 ∨
      c.toNat = 46 := by
  simp [isSchemeChar, Bool.or_eq_true_iff, Bool.and_eq_true_iff,
    decide_eq_true_eq, beq_iff_eq]
  tauto

theorem isAsciiAlpha_iff (c : Char) :
    isAsciiAlpha c = true ↔
      (65 ≤ c.toNat ∧ c.toNat ≤ 90) ∨ (97 ≤ c.toNat ∧ c.toNat ≤ 122) := by
  simp [isAsciiAlpha, Bool.or_eq_true_iff, Bool.and_eq_true_iff,
    decide_eq_true_eq]

theorem unsafeChar_of_schemeChar {c : Char} (h : isSchemeChar c = true) :
    unsafeChar c = false := by
  rcases hb : unsafeChar c with _ | _
  · rfl
  · rw [isSchemeChar_iff] at h
    rcases (unsafeChar_iff c).1 hb with h1 | h1 | h1 <;> omega

theorem toLower_of_schemeChar {c : Char} (h : isSchemeChar c = true) :
    isSchemeChar c.toLower = true ∧ c.toLower.toLower = c.toLower := by
  rw [isSchemeChar_iff] at h
  rw [Char.toLower]
  by_cases hc : c.toNat ≥ 65 ∧ c.toNat ≤ 90
  · rw [if_pos hc]
    have ht : (Char.ofNat (c.toNat + 32)).toNat = c.toNat + 32 :=
      toNat_ofNat_small (c.toNat + 32) (by omega)
    constructor
    · rw [isSchemeChar_iff, ht]
      omega
    · rw [Char.toLower, ht, if_neg (by omega)]
  · rw [if_neg hc]
    refine ⟨by rw [isSchemeChar_iff]; omega, ?_⟩
    rw [Char.toLower, if_neg hc]

theorem isAsciiAlpha_toLower {c : Char} (h : isAsciiAlpha c = true) :
    isAsciiAlpha c.toLower = true := by
  rw [isAsciiAlpha_iff] at h
  rw [Char.toLower]
  by_cases hc : c.toNat ≥ 65 ∧ c.toNat ≤ 90
  · rw [if_pos hc]
    have ht : (Char.ofNat (c.toNat + 32)).toNat = c.toNat + 32 :=
      toNat_ofNat_small (c.toNat + 32) (by omega)
    rw [isAsciiAlpha_iff, ht]
    omega
  · rw [if_neg hc, isAsciiAlpha_iff]
    omega

theorem schemeChar_of_alpha {c : Char} (h : isAsciiAlpha c = true) :
    isSchemeChar c = true := by
  rw [isAsciiAlpha_iff] at h
  rw [isSchemeChar_iff]
  omega

theorem alpha_of_not_schemeChar {c : Char} (h : isSchemeChar c = false) :
    isAsciiAlpha c = false := by
  rcases ha : isAsciiAlpha c with _ | _
  · rfl
  · rw [schemeChar_of_alpha ha] at h
    simp at h

/-! ### Stage lemmas for re-parsing a reassembled URL -/

/-- The scheme scan fails: the first character is not an ASCII letter,
or the maximal `scheme_chars` prefix is not followed by `:`. -/
def noScheme (l : Chars) : Prop :=
  isAsciiAlpha (l.headD ' ') = false ∨
    (l.dropWhile isSchemeChar).head? ≠ some ':'

theorem schemeSplit_none (l : Chars) (h : noScheme l) :
    schemeSplit l = ([], l) := by
  rw [schemeSplit]
  by_cases ha : isAsciiAlpha (l.headD ' ') = true
  · rw [if_pos ha]
    rcases h with h | h
    · rw [ha] at h
      simp at h
    · split
      next r heq =>
        rw [heq] at h
        simp at h
      next => rfl
  · rw [if_neg ha]

theorem schemeSplit_some (sch rest : Chars)
    (hc : ∀ c ∈ sch, isSchemeChar c = true ∧ Char.toLower c = c)
    (hne : sch ≠ [])
    (hh : isAsciiAlpha (sch.headD ' ') = true) :
    schemeSplit (sch ++ ':' :: rest) = (sch, rest) := by
  rw [schemeSplit]
  have hhead : (sch ++ ':' :: rest).headD ' ' = sch.headD ' ' := by
    rcases sch with _ | ⟨a, t⟩
    · simp at hne
    · rfl
  rw [hhead, if_pos hh,
    dropWhile_middle sch ':' rest (fun c hcm => (hc c hcm).1) (by decide)]
  show ((sch ++ ':' :: rest).takeWhile isSchemeChar |>.map Char.toLower,
    rest) = (sch, rest)
  rw [takeWhile_middle sch ':' rest (fun c hcm => (hc c hcm).1) (by decide)]
  rw [(List.map_congr_left fun c hcm => (hc c hcm).2 : sch.map Char.toLower
    = sch.map id), List.map_id]

theorem netlocSplit_none (l : Chars) (h : l.take 2 ≠ ['/', '/']) :
    netlocSplit l = ([], l) := by
  rw [netlocSplit.eq_def]
  split
  next r =>
    exact absurd rfl h
  next => rfl

theorem netlocSplit_some (nl rest : Chars)
    (hnl : ∀ c ∈ nl, isNetlocDelim c = false)
    (hrest : rest = [] ∨ ∃ c t, rest = c :: t ∧ isNetlocDelim c = true) :
    netlocSplit ('/' :: '/' :: (nl ++ rest)) = (nl, rest) := by
  rw [netlocSplit.eq_def]
  show ((nl ++ rest).takeWhile (fun c => !isNetlocDelim c),
        (nl ++ rest).dropWhile (fun c => !isNetlocDelim c)) = (nl, rest)
  rcases hrest with rfl | ⟨c, t, rfl, hc⟩
  · rw [List.append_nil,
      takeWhile_all _ (fun d hd => by simp [hnl d hd]),
      dropWhile_all _ (fun d hd => by simp [hnl d hd])]
  · rw [takeWhile_middle nl c t (fun d hd => by simp [hnl d hd]) (by simp [hc]),
      dropWhile_middle nl c t (fun d hd => by simp [hnl d hd]) (by simp [hc])]

theorem fragSplit_none (l : Chars) (h : ∀ c ∈ l, (c == '#') = false) :
    fragSplit l = (l, []) := by
  rw [fragSplit,
    takeWhile_all _ (fun c hc => by simp [h c hc]),
    dropWhile_all _ (fun c hc => by simp [h c hc])]
  rfl

theorem fragSplit_some (pre f : Chars) (h : ∀ c ∈ pre, (c == '#') = false) :
    fragSplit (pre ++ '#' :: f) = (pre, f) := by
  rw [fragSplit,
    takeWhile_middle pre '#' f (fun c hc => by simp [h c hc]) (by decide),
    dropWhile_middle pre '#' f (fun c hc => by simp [h c hc]) (by decide)]
  rfl

theorem querySplit_none (l : Chars) (h : ∀ c ∈ l, (c == '?') = false) :
    querySplit l = (l, []) := by
  rw [querySplit,
    takeWhile_all _ (fun c hc => by simp [h c hc]),
    dropWhile_all _ (fun c hc => by simp [h c hc])]
  rfl

theorem querySplit_some (pre q : Chars) (h : ∀ c ∈ pre, (c == '?') = false) :
    querySplit (pre ++ '?' :: q) = (pre, q) := by
  rw [querySplit,
    takeWhile_middle pre '?' q (fun c hc => by simp [h c hc]) (by decide),
    dropWhile_middle pre '?' q (fun c hc => by simp [h c hc]) (by decide)]
  rfl

theorem noScheme_nil : noScheme [] := Or.inl (by decide)

theorem noScheme_cons_not_alpha (c : Char) (t : Chars)
    (h : isAsciiAlpha c = false) : noScheme (c :: t) :=
  Or.inl (by simpa using h)

/-- Appending after a scheme-free list stays scheme-free, provided the
appended part cannot supply the missing colon: either the scan already
stops inside the first list, or the appended part is empty or starts
with a character that is neither a scheme character nor a colon. -/
theorem noScheme_append (a b : Chars) (ha : noScheme a)
    (hb : a.dropWhile isSchemeChar ≠ [] ∨ b = [] ∨
      (∃ c t, b = c :: t ∧ isSchemeChar c = false ∧ c ≠ ':')) :
    noScheme (a ++ b) := by
  rcases a with _ | ⟨x, xs⟩
  · simp only [List.nil_append]
    rcases hb with hd | hb | ⟨c, t, rfl, hc1, hc2⟩
    · simp at hd
    · rw [hb]
      exact noScheme_nil
    · exact noScheme_cons_not_alpha c t (alpha_of_not_schemeChar hc1)
  · rcases ha with ha | ha
    · exact Or.inl (by simpa using ha)
    · right
      rw [List.dropWhile_append]
      by_cases hempty : ((x :: xs).dropWhile isSchemeChar).isEmpty = true
      · rw [if_pos hempty]
        rcases hb with hd | hb | ⟨c, t, rfl, hc1, hc2⟩
        · rw [List.isEmpty_iff] at hempty
          exact absurd hempty hd
        · rw [hb]
          simp
        · rw [List.dropWhile_cons, if_neg (by simp [hc1])]
          simpa using hc2
      · rw [if_neg hempty]
        rw [List.isEmpty_iff] at hempty
        rcases hd : (x :: xs).dropWhile isSchemeChar with _ | ⟨c, t⟩
        · exact absurd hd hempty
        · rw [hd] at ha
          simpa using ha

theorem noScheme_prefix (a b : Chars) (h : noScheme (a ++ b)) : noScheme a := by
  rcases h with h | h
  · rcases a with _ | ⟨x, t⟩
    · exact noScheme_nil
    · exact Or.inl (by simpa using h)
  · by_cases hall : ∀ c ∈ a, isSchemeChar c = true
    · right
      rw [dropWhile_all a hall]
      simp
    · right
      have hd : a.dropWhile isSchemeChar ≠ [] := by
        intro hnil
        exact hall (List.dropWhile_eq_nil_iff.1 hnil)
      rw [List.dropWhile_append, if_neg (by simpa using hd)] at h
      rcases he : a.dropWhile isSchemeChar with _ | ⟨c, t⟩
      · exact absurd he hd
      · rw [he] at h
        simpa using h

/-! ### Sanitize lemmas -/

theorem sanitize_append (a b : Chars) :
    sanitize (a ++ b) = sanitize a ++ sanitize b := by
  simp [sanitize]

theorem sanitize_clean (l : Chars) (h : ∀ c ∈ l, unsafeChar c = false) :
    sanitize l = l := by
  rw [sanitize, List.filter_eq_self]
  intro c hc
  simp [h c hc]

theorem sanitize_cons_clean (c : Char) (t : Chars) (h : unsafeChar c = false) :
    sanitize (c :: t) = c :: sanitize t := by
  simp [sanitize, List.filter_cons, h]

theorem mem_sanitize (c : Char) (l : Chars) (h : c ∈ sanitize l) :
    c ∈ l ∧ unsafeChar c = false := by
  rw [sanitize, List.mem_filter] at h
  exact ⟨h.1, by simpa using h.2⟩

/-! ### Invariants of the parse result -/

theorem mem_of_mem_takeWhile {p : Char → Bool} {c : Char} {l : Chars}
    (h : c ∈ l.takeWhile p) : c ∈ l := by
  rw [← List.takeWhile_append_dropWhile p l]
  exact List.mem_append.2 (Or.inl h)

theorem mem_of_mem_dropWhile {p : Char → Bool} {c : Char} {l : Chars}
    (h : c ∈ l.dropWhile p) : c ∈ l := by
  rw [← List.takeWhile_append_dropWhile p l]
  exact List.mem_append.2 (Or.inr h)

theorem headD_takeWhile {p : Char → Bool} (l : Chars)
    (h : l.takeWhile p ≠ []) : (l.takeWhile p).headD ' ' = l.headD ' ' := by
  rcases l with _ | ⟨x, xs⟩
  · simp at h
  · rw [List.takeWhile_cons] at h ⊢
    by_cases hp : p x = true
    · rw [if_pos hp]
      rfl
    · rw [if_neg hp] at h
      simp at h

theorem schemeSplit_spec (l : Chars) :
    (∀ c ∈ (schemeSplit l).1, isSchemeChar c = true ∧ Char.toLower c = c)
    ∧ ((schemeSplit l).1 ≠ [] →
        isAsciiAlpha ((schemeSplit l).1.headD ' ') = true)
    ∧ (∀ c ∈ (schemeSplit l).2, c ∈ l) := by
  rw [schemeSplit]
  by_cases ha : isAsciiAlpha (l.headD ' ') = true
  · rw [if_pos ha]
    split
    next r heq =>
      refine ⟨?_, ?_, ?_⟩
      · intro c hc
        rw [List.mem_map] at hc
        obtain ⟨d, hd, rfl⟩ := hc
        exact toLower_of_schemeChar (List.mem_takeWhile_imp hd)
      · intro hne
        have htw : l.takeWhile isSchemeChar ≠ [] := by
          intro hnil
          rw [hnil] at hne
          simp at hne
        rcases he : l.takeWhile isSchemeChar with _ | ⟨x, xs⟩
        · exact absurd he htw
        · have hx : (l.takeWhile isSchemeChar).headD ' ' = l.headD ' ' :=
            headD_takeWhile l htw
          rw [he] at hx
          simp only [he, List.map_cons, List.headD_cons]
          rw [List.headD_cons] at hx
          rw [hx]
          exact isAsciiAlpha_toLower ha
      · intro c hc
        have : c ∈ l.dropWhile isSchemeChar := by
          rw [heq]
          exact List.mem_cons_of_mem ':' hc
        exact mem_of_mem_dropWhile this
    next => exact ⟨by simp, by simp, fun c hc => hc⟩
  · rw [if_neg ha]
    exact ⟨by simp, by simp, fun c hc => hc⟩

theorem schemeSplit_fst_empty (l : Chars) (h : (schemeSplit l).1 = []) :
    noScheme l := by
  by_cases ha : isAsciiAlpha (l.headD ' ') = true
  · right
    rcases hd : l.dropWhile isSchemeChar with _ | ⟨c, r⟩
    · simp
    · by_cases hc : c = ':'
      · exfalso
        subst hc
        have he : schemeSplit l =
            ((l.takeWhile isSchemeChar).map Char.toLower, r) := by
          rw [schemeSplit, if_pos ha, hd]
          rfl
        rw [he] at h
        simp only [List.map_eq_nil_iff] at h
        rcases l with _ | ⟨x, xs⟩
        · exact absurd ha (by decide)
        · rw [List.takeWhile_cons,
            if_pos (schemeChar_of_alpha (by simpa using ha))] at h
          simp at h
      · simp [hc]
  · exact Or.inl (by simpa using ha)

theorem netlocSplit_spec (l : Chars) :
    (∀ c ∈ (netlocSplit l).1, isNetlocDelim c = false ∧ c ∈ l)
    ∧ (∀ c ∈ (netlocSplit l).2, c ∈ l) := by
  rw [netlocSplit.eq_def]
  split
  next r =>
    refine ⟨?_, ?_⟩
    · intro c hc
      have h1 := List.mem_takeWhile_imp hc
      refine ⟨by simpa using h1, ?_⟩
      exact List.mem_cons_of_mem _ (List.mem_cons_of_mem _
        (mem_of_mem_takeWhile hc))
    · intro c hc
      exact List.mem_cons_of_mem _ (List.mem_cons_of_mem _
        (mem_of_mem_dropWhile hc))
  next => exact ⟨by simp, fun c hc => hc⟩

theorem fragSplit_spec (l : Chars) :
    (∀ c ∈ (fragSplit l).1, (c == '#') = false ∧ c ∈ l)
    ∧ (∀ c ∈ (fragSplit l).2, c ∈ l) := by
  refine ⟨?_, ?_⟩
  · intro c hc
    have h1 := List.mem_takeWhile_imp hc
    exact ⟨by simpa using h1, mem_of_mem_takeWhile hc⟩
  · intro c hc
    exact mem_of_mem_dropWhile (List.mem_of_mem_tail hc)

theorem querySplit_spec (l : Chars) :
    (∀ c ∈ (querySplit l).1, (c == '?') = false ∧ c ∈ l)
    ∧ (∀ c ∈ (querySplit l).2, c ∈ l) := by
  refine ⟨?_, ?_⟩
  · intro c hc
    have h1 := List.mem_takeWhile_imp hc
    exact ⟨by simpa using h1, mem_of_mem_takeWhile hc⟩
  · intro c hc
    exact mem_of_mem_dropWhile (List.mem_of_mem_tail hc)

theorem urlsplit_inv (u : Chars) :
    (∀ c ∈ (urlsplit u).scheme, isSchemeChar c = true ∧ Char.toLower c = c)
    ∧ ((urlsplit u).scheme ≠ [] →
        isAsciiAlpha ((urlsplit u).scheme.headD ' ') = true)
    ∧ (∀ c ∈ (urlsplit u).netloc, isNetlocDelim c = false ∧ unsafeChar c = false)
    ∧ (∀ c ∈ (urlsplit u).path,
        (c == '#') = false ∧ (c == '?') = false ∧ unsafeChar c = false)
    ∧ (∀ c ∈ (urlsplit u).query, (c == '#') = false ∧ unsafeChar c = false)
    ∧ (∀ c ∈ (urlsplit u).fragment, unsafeChar c = false) := by
  have hss := schemeSplit_spec (sanitize u)
  have hns := netlocSplit_spec (schemeSplit (sanitize u)).2
  have hfs := fragSplit_spec (netlocSplit (schemeSplit (sanitize u)).2).2
  have hqs := querySplit_spec
    (fragSplit (netlocSplit (schemeSplit (sanitize u)).2).2).1
  refine ⟨hss.1, hss.2.1, ?_, ?_, ?_, ?_⟩
  · intro c hc
    rcases hns.1 c hc with ⟨h1, h2⟩
    exact ⟨h1, (mem_sanitize c u (hss.2.2 c h2)).2⟩
  · intro c hc
    rcases hqs.1 c hc with ⟨h1, h2⟩
    rcases hfs.1 c h2 with ⟨h3, h4⟩
    exact ⟨h3, h1, (mem_sanitize c u (hss.2.2 c (hns.2 c h4))).2⟩
  · intro c hc
    rcases hfs.1 c (hqs.2 c hc) with ⟨h3, h4⟩
    exact ⟨h3, (mem_sanitize c u (hss.2.2 c (hns.2 c h4))).2⟩
  · intro c hc
    exact (mem_sanitize c u (hss.2.2 c (hns.2 c (hfs.2 c hc)))).2

theorem splitparams_mem (l : Chars) :
    (∀ c ∈ (splitparams l).1, c ∈ l) ∧ (∀ c ∈ (splitparams l).2, c ∈ l) := by
  have hseg : ∀ c ∈ (l.reverse.takeWhile fun d => !(d == '/')).reverse, c ∈ l := by
    intro c hc
    rw [List.mem_reverse] at hc
    have := mem_of_mem_takeWhile hc
    rwa [List.mem_reverse] at this
  have hpre : ∀ c ∈ (l.reverse.dropWhile fun d => !(d == '/')).reverse, c ∈ l := by
    intro c hc
    rw [List.mem_reverse] at hc
    have := mem_of_mem_dropWhile hc
    rwa [List.mem_reverse] at this
  rw [splitparams]
  by_cases h1 : l.contains '/'
  · rw [if_pos h1]
    by_cases h2 : ((l.reverse.takeWhile fun d => !(d == '/')).reverse).contains ';'
    · rw [if_pos h2]
      refine ⟨?_, ?_⟩
      · intro c hc
        rcases List.mem_append.1 hc with hm | hm
        · exact hpre c hm
        · exact hseg c (mem_of_mem_takeWhile hm)
      · intro c hc
        exact hseg c (mem_of_mem_dropWhile (List.mem_of_mem_tail hc))
    · rw [if_neg h2]
      exact ⟨fun c hc => hc, by simp⟩
  · rw [if_neg h1]
    by_cases h2 : l.contains ';'
    · rw [if_pos h2]
      refine ⟨?_, ?_⟩
      · intro c hc
        exact mem_of_mem_takeWhile hc
      · intro c hc
        exact mem_of_mem_dropWhile (List.mem_of_mem_tail hc)
    · rw [if_neg h2]
      exact ⟨fun c hc => hc, by simp⟩

theorem urlparse_scheme (u : Chars) :
    (urlparse u).scheme = (urlsplit u).scheme := rfl

theorem urlparse_netloc (u : Chars) :
    (urlparse u).netloc = (urlsplit u).netloc := rfl

theorem urlparse_query (u : Chars) :
    (urlparse u).query = (urlsplit u).query := rfl

theorem urlparse_fragment (u : Chars) :
    (urlparse u).fragment = (urlsplit u).fragment := rfl

theorem urlparse_path_params_mem (u : Chars) :
    (∀ c ∈ (urlparse u).path, c ∈ (urlsplit u).path)
    ∧ (∀ c ∈ (urlparse u).params, c ∈ (urlsplit u).path) := by
  rw [urlparse]
  by_cases h : usesParams.contains (urlsplit u).scheme
      && (urlsplit u).path.contains ';'
  · simp only [h, if_true, if_pos]
    exact ⟨(splitparams_mem (urlsplit u).path).1,
           (splitparams_mem (urlsplit u).path).2⟩
  · simp only [h, Bool.false_eq_true, if_false, if_neg]
    exact ⟨fun c hc => hc, by simp⟩

/-! ### Normal form of a reassembled URL -/

/-- The path-with-optional-`//`-prefix part of `urlunsplit` (the first
two conditionals of the source). -/
def slashPart (sch nl p2 : Chars) : Chars :=
  if nl ≠ [] ∨ (sch ≠ [] ∧ usesNetloc.contains sch ∧ p2.take 2 ≠ ['/', '/'])
  then '/' :: '/' :: nl ++
    (if p2 ≠ [] ∧ p2.head? ≠ some '/' then '/' :: p2 else p2)
  else p2

theorem urlunsplit_cases (sch nl p2 q2 f : Chars) :
    urlunsplit ⟨sch, nl, p2, q2, f⟩ =
      (if sch ≠ [] then sch ++ ':' :: slashPart sch nl p2
        else slashPart sch nl p2)
      ++ (if q2 ≠ [] then '?' :: q2 else [])
      ++ (if f ≠ [] then '#' :: f else []) := by
  by_cases h2 : q2 ≠ [] <;> by_cases h3 : f ≠ [] <;>
    simp [urlunsplit, slashPart, h2, h3, List.append_assoc]

theorem sanitize_unsplit (sch nl p2 q2 f : Chars)
    (hsch : ∀ c ∈ sch, unsafeChar c = false)
    (hq2c : ∀ c ∈ q2, unsafeChar c = false)
    (hfc : ∀ c ∈ f, unsafeChar c = false) :
    sanitize (urlunsplit ⟨sch, nl, p2, q2, f⟩) =
      (if sch ≠ [] then sch ++ ':' :: sanitize (slashPart sch nl p2)
        else sanitize (slashPart sch nl p2))
      ++ (if q2 ≠ [] then '?' :: q2 else [])
      ++ (if f ≠ [] then '#' :: f else []) := by
  rw [urlunsplit_cases, sanitize_append, sanitize_append]
  congr 1
  · congr 1
    · by_cases h1 : sch ≠ []
      · rw [if_pos h1, if_pos h1, sanitize_append, sanitize_clean sch hsch,
          sanitize_cons_clean ':' _ (by decide)]
      · rw [if_neg h1, if_neg h1]
    · by_cases h2 : q2 ≠ []
      · rw [if_pos h2, sanitize_cons_clean '?' _ (by decide),
          sanitize_clean q2 hq2c]
      · rw [if_neg h2]
        rfl
  · by_cases h3 : f ≠ []
    · rw [if_pos h3, sanitize_cons_clean '#' _ (by decide),
        sanitize_clean f hfc]
    · rw [if_neg h3]
      rfl

/-- The sanitized `slashPart`, per case of the `//`-insertion condition. -/
theorem sanitize_slashPart (sch nl p2 : Chars)
    (hnlc : ∀ c ∈ nl, unsafeChar c = false) :
    (¬ (nl ≠ [] ∨ (sch ≠ [] ∧ usesNetloc.contains sch ∧
        p2.take 2 ≠ ['/', '/'])) →
      sanitize (slashPart sch nl p2) = sanitize p2)
    ∧ ((nl ≠ [] ∨ (sch ≠ [] ∧ usesNetloc.contains sch ∧
        p2.take 2 ≠ ['/', '/'])) →
      sanitize (slashPart sch nl p2) = '/' :: '/' :: nl ++
        sanitize (if p2 ≠ [] ∧ p2.head? ≠ some '/' then '/' :: p2 else p2)) := by
  constructor
  · intro h
    rw [slashPart, if_neg h]
  · intro h
    rw [slashPart, if_pos h]
    rw [show ('/' :: '/' :: nl ++
        (if p2 ≠ [] ∧ p2.head? ≠ some '/' then '/' :: p2 else p2))
        = ('/' :: '/' :: nl) ++
          (if p2 ≠ [] ∧ p2.head? ≠ some '/' then '/' :: p2 else p2) from by
      simp]
    rw [sanitize_append,
      sanitize_cons_clean '/' _ (by decide), sanitize_cons_clean '/' _ (by decide),
      sanitize_clean nl hnlc]

/-! ### Tracking a tail through the scheme and netloc stages -/

theorem schemeSplit_protect (A : Chars) (bh : Char) (bt : Chars)
    (hbh : isSchemeChar bh = false) (hbh2 : bh ≠ ':') :
    ∃ A2, (schemeSplit (A ++ bh :: bt)).2 = A2 ++ bh :: bt
      ∧ ∀ c ∈ A2, c ∈ A := by
  rw [schemeSplit]
  by_cases ha : isAsciiAlpha ((A ++ bh :: bt).headD ' ') = true
  · rw [if_pos ha]
    split
    next r heq =>
      by_cases hall : ∀ c ∈ A, isSchemeChar c = true
      · rw [List.dropWhile_append,
          if_pos (by rw [List.isEmpty_iff]; exact dropWhile_all A hall),
          List.dropWhile_cons, if_neg (by simp [hbh])] at heq
        exact absurd (List.head_eq_of_cons_eq heq) hbh2
      · have hd : A.dropWhile isSchemeChar ≠ [] := by
          intro hnil
          exact hall (List.dropWhile_eq_nil_iff.1 hnil)
        rw [List.dropWhile_append, if_neg (by simpa using hd)] at heq
        rcases he : A.dropWhile isSchemeChar with _ | ⟨c, A2⟩
        · exact absurd he hd
        · rw [he] at heq
          refine ⟨A2, ?_, ?_⟩
          · show r = A2 ++ bh :: bt
            have := List.tail_eq_of_cons_eq heq
            exact this.symm
          · intro c2 hc2
            exact mem_of_mem_dropWhile (he ▸ List.mem_cons_of_mem c hc2)
    next =>
      exact ⟨A, rfl, fun c hc => hc⟩
  · rw [if_neg ha]
    exact ⟨A, rfl, fun c hc => hc⟩

theorem netlocSplit_protect (A : Chars) (bh : Char) (bt : Chars)
    (hbh : isNetlocDelim bh = true) (hslash : bh ≠ '/') :
    ∃ A2, (netlocSplit (A ++ bh :: bt)).2 = A2 ++ bh :: bt
      ∧ ∀ c ∈ A2, c ∈ A := by
  rcases A with _ | ⟨c1, A1⟩
  · refine ⟨[], ?_, by simp⟩
    rw [List.nil_append, netlocSplit_none _ ?_]
    rcases bt with _ | ⟨c2, t⟩
    · simp
    · intro h
      rw [List.take, List.take] at h
      exact hslash (List.head_eq_of_cons_eq h)
  · rcases A1 with _ | ⟨c2, A2⟩
    · refine ⟨[c1], ?_, by simp⟩
      rw [netlocSplit_none _ ?_]
      intro h
      rw [List.cons_append, List.nil_append, List.take, List.take] at h
      exact hslash (List.head_eq_of_cons_eq (List.tail_eq_of_cons_eq h))
    · by_cases hc1 : c1 = '/'
      · by_cases hc2 : c2 = '/'
        · subst hc1
          subst hc2
          rw [show ('/' :: '/' :: A2) ++ bh :: bt
              = '/' :: '/' :: (A2 ++ bh :: bt) from rfl]
          rw [netlocSplit.eq_def]
          show ∃ A3, (A2 ++ bh :: bt).dropWhile (fun c => !isNetlocDelim c)
              = A3 ++ bh :: bt ∧ ∀ c ∈ A3, c ∈ '/' :: '/' :: A2
          by_cases hall : ∀ c ∈ A2, isNetlocDelim c = false
          · refine ⟨[], ?_, by simp⟩
            rw [List.nil_append,
              dropWhile_middle A2 bh bt (fun d hd => by simp [hall d hd])
                (by simp [hbh])]
          · have hd : A2.dropWhile (fun c => !isNetlocDelim c) ≠ [] := by
              intro hnil
              apply hall
              intro d hd2
              have := List.dropWhile_eq_nil_iff.1 hnil d hd2
              simpa using this
            refine ⟨A2.dropWhile (fun c => !isNetlocDelim c), ?_, ?_⟩
            · rw [List.dropWhile_append, if_neg (by simpa using hd)]
            · intro d hd2
              exact List.mem_cons_of_mem _ (List.mem_cons_of_mem _
                (mem_of_mem_dropWhile hd2))
        · refine ⟨c1 :: c2 :: A2, ?_, fun c hc => hc⟩
          rw [netlocSplit_none _ ?_]
          intro h
          rw [List.cons_append, List.cons_append, List.take, List.take] at h
          exact hc2 (List.head_eq_of_cons_eq (List.tail_eq_of_cons_eq h))
      · refine ⟨c1 :: c2 :: A2, ?_, fun c hc => hc⟩
        rw [netlocSplit_none _ ?_]
        intro h
        rw [List.cons_append, List.cons_append, List.take, List.take] at h
        exact hc1 (List.head_eq_of_cons_eq h)

/-! ### Re-parsing a reassembled URL -/

theorem urlsplit_scheme_def (u : Chars) :
    (urlsplit u).scheme = (schemeSplit (sanitize u)).1 := rfl

theorem urlsplit_netloc_def (u : Chars) :
    (urlsplit u).netloc = (netlocSplit (schemeSplit (sanitize u)).2).1 := rfl

theorem urlsplit_query_def (u : Chars) :
    (urlsplit u).query =
      (querySplit (fragSplit
        (netlocSplit (schemeSplit (sanitize u)).2).2).1).2 := rfl

theorem urlsplit_fragment_def (u : Chars) :
    (urlsplit u).fragment =
      (fragSplit (netlocSplit (schemeSplit (sanitize u)).2).2).2 := rfl

/-- Optional query and fragment tails cannot make a scheme-free prefix
parse a scheme. -/
theorem noScheme_form (sp2 q2 f : Chars) (h : noScheme sp2) :
    noScheme ((sp2 ++ (if q2 ≠ [] then '?' :: q2 else []))
      ++ (if f ≠ [] then '#' :: f else [])) := by
  by_cases h2 : q2 ≠ []
  · rw [if_pos h2]
    have hstep : noScheme (sp2 ++ '?' :: q2) :=
      noScheme_append sp2 ('?' :: q2) h
        (Or.inr (Or.inr ⟨'?', q2, rfl, by decide, by decide⟩))
    by_cases h3 : f ≠ []
    · rw [if_pos h3]
      exact noScheme_append (sp2 ++ '?' :: q2) ('#' :: f) hstep
        (Or.inr (Or.inr ⟨'#', f, rfl, by decide, by decide⟩))
    · rw [if_neg h3, List.append_nil]
      exact hstep
  · rw [if_neg h2, List.append_nil]
    by_cases h3 : f ≠ []
    · rw [if_pos h3]
      exact noScheme_append sp2 ('#' :: f) h
        (Or.inr (Or.inr ⟨'#', f, rfl, by decide, by decide⟩))
    · rw [if_neg h3, List.append_nil]
      exact h

/-- Optional query and fragment tails cannot create a leading `//`. -/
theorem take_two_append_ne (a q2 f : Chars) (h : a.take 2 ≠ ['/', '/']) :
    ((a ++ (if q2 ≠ [] then '?' :: q2 else []))
      ++ (if f ≠ [] then '#' :: f else [])).take 2 ≠ ['/', '/'] := by
  rcases a with _ | ⟨c1, a1⟩
  · simp only [List.nil_append]
    by_cases h2 : q2 ≠ []
    · rw [if_pos h2]
      intro hc
      rw [List.cons_append] at hc
      simp only [List.take_succ_cons] at hc
      exact absurd (List.head_eq_of_cons_eq hc) (by decide)
    · rw [if_neg h2]
      simp only [List.nil_append]
      by_cases h3 : f ≠ []
      · rw [if_pos h3]
        intro hc
        simp only [List.take_succ_cons] at hc
        exact absurd (List.head_eq_of_cons_eq hc) (by decide)
      · rw [if_neg h3]
        simp
  · rcases a1 with _ | ⟨c2, a2⟩
    · simp only [List.cons_append, List.nil_append]
      by_cases h2 : q2 ≠ []
      · rw [if_pos h2]
        intro hc
        rw [List.cons_append] at hc
        simp only [List.take_succ_cons] at hc
        exact absurd (List.head_eq_of_cons_eq
          (List.tail_eq_of_cons_eq hc)) (by decide)
      · rw [if_neg h2]
        simp only [List.nil_append]
        by_cases h3 : f ≠ []
        · rw [if_pos h3]
          intro hc
          simp only [List.take_succ_cons] at hc
          exact absurd (List.head_eq_of_cons_eq
            (List.tail_eq_of_cons_eq hc)) (by decide)
        · rw [if_neg h3]
          intro hc
          simp only [List.take_succ_cons, List.take_nil] at hc
          simp at hc
    · intro hc
      apply h
      simp only [List.cons_append, List.take_succ_cons, List.take_zero]
        at hc ⊢
      rw [List.head_eq_of_cons_eq hc,
        List.head_eq_of_cons_eq (List.tail_eq_of_cons_eq hc)]

/-- Re-parsing recovers the scheme. -/
theorem reparse_scheme (sch nl p2 q2 f : Chars)
    (hschc : ∀ c ∈ sch, isSchemeChar c = true ∧ Char.toLower c = c)
    (hschh : sch ≠ [] → isAsciiAlpha (sch.headD ' ') = true)
    (hnlc : ∀ c ∈ nl, unsafeChar c = false)
    (hq2c : ∀ c ∈ q2, unsafeChar c = false)
    (hfc : ∀ c ∈ f, unsafeChar c = false)
    (hnos : sch = [] → nl = [] → noScheme (sanitize p2)) :
    (urlsplit (urlunsplit ⟨sch, nl, p2, q2, f⟩)).scheme = sch := by
  rw [urlsplit_scheme_def,
    sanitize_unsplit sch nl p2 q2 f
      (fun c hc => unsafeChar_of_schemeChar (hschc c hc).1) hq2c hfc]
  by_cases hs : sch ≠ []
  · rw [if_pos hs]
    rw [show ((sch ++ ':' :: sanitize (slashPart sch nl p2))
        ++ (if q2 ≠ [] then '?' :: q2 else []))
        ++ (if f ≠ [] then '#' :: f else [])
        = sch ++ ':' :: ((sanitize (slashPart sch nl p2)
          ++ (if q2 ≠ [] then '?' :: q2 else []))
          ++ (if f ≠ [] then '#' :: f else [])) from by
      simp [List.append_assoc]]
    rw [schemeSplit_some sch _ hschc hs (hschh hs)]
  · rw [if_neg hs]
    push_neg at hs
    by_cases hn : nl = []
    · rw [schemeSplit_none _ (noScheme_form _ q2 f ?_), hs]
      rw [(sanitize_slashPart sch nl p2 hnlc).1 (by
        subst hs
        subst hn
        simp)]
      exact hnos hs hn
    · rw [schemeSplit_none _ ?_, hs]
      rw [(sanitize_slashPart sch nl p2 hnlc).2 (Or.inl hn)]
      apply noScheme_form
      exact noScheme_cons_not_alpha '/' _ (by decide)

/-- Re-parsing recovers a nonempty netloc. -/
theorem reparse_netloc_some (sch nl p2 q2 f : Chars)
    (hschc : ∀ c ∈ sch, isSchemeChar c = true ∧ Char.toLower c = c)
    (hschh : sch ≠ [] → isAsciiAlpha (sch.headD ' ') = true)
    (hnl : ∀ c ∈ nl, isNetlocDelim c = false ∧ unsafeChar c = false)
    (hq2c : ∀ c ∈ q2, unsafeChar c = false)
    (hfc : ∀ c ∈ f, unsafeChar c = false)
    (hne : nl ≠ []) :
    (urlsplit (urlunsplit ⟨sch, nl, p2, q2, f⟩)).netloc = nl := by
  rw [urlsplit_netloc_def,
    sanitize_unsplit sch nl p2 q2 f
      (fun c hc => unsafeChar_of_schemeChar (hschc c hc).1) hq2c hfc]
  rw [(sanitize_slashPart sch nl p2 (fun c hc => (hnl c hc).2)).2 (Or.inl hne)]
  have htail : ∀ T : Chars,
      T = sanitize (if p2 ≠ [] ∧ p2.head? ≠ some '/' then '/' :: p2 else p2) →
      (T ++ (if q2 ≠ [] then '?' :: q2 else []))
        ++ (if f ≠ [] then '#' :: f else []) = [] ∨
      ∃ ch ct, (T ++ (if q2 ≠ [] then '?' :: q2 else []))
        ++ (if f ≠ [] then '#' :: f else []) = ch :: ct
        ∧ isNetlocDelim ch = true := by
    intro T hT
    by_cases hp : p2 ≠ [] ∧ p2.head? ≠ some '/'
    · rw [if_pos hp] at hT
      rw [hT, sanitize_cons_clean '/' p2 (by decide)]
      exact Or.inr ⟨'/', (sanitize p2 ++ (if q2 ≠ [] then '?' :: q2 else []))
        ++ (if f ≠ [] then '#' :: f else []),
        by rw [List.cons_append, List.cons_append], by decide⟩
    · rw [if_neg hp] at hT
      push_neg at hp
      by_cases hp2 : p2 = []
      · subst hp2
        rw [hT]
        show sanitize [] ++ _ ++ _ = [] ∨ _
        rw [show sanitize ([] : Chars) = [] from rfl, List.nil_append]
        by_cases h2 : q2 ≠ []
        · rw [if_pos h2]
          exact Or.inr ⟨'?', q2 ++ (if f ≠ [] then '#' :: f else []),
            by rw [List.cons_append], by decide⟩
        · rw [if_neg h2, List.nil_append]
          by_cases h3 : f ≠ []
          · rw [if_pos h3]
            exact Or.inr ⟨'#', _, rfl, by decide⟩
          · rw [if_neg h3]
            exact Or.inl rfl
      · have hhd := hp hp2
        rcases p2 with _ | ⟨c0, t0⟩
        · exact absurd rfl hp2
        · rw [List.head?_cons] at hhd
          have hc0 : c0 = '/' := by
            by_contra hc
            exact hc (Option.some.inj hhd)
          subst hc0
          rw [hT, sanitize_cons_clean '/' t0 (by decide)]
          exact Or.inr ⟨'/', (sanitize t0 ++ (if q2 ≠ [] then '?' :: q2 else []))
            ++ (if f ≠ [] then '#' :: f else []),
            by rw [List.cons_append, List.cons_append], by decide⟩
  have hform : ∀ REST : Chars,
      REST = ('/' :: '/' :: nl ++
          sanitize (if p2 ≠ [] ∧ p2.head? ≠ some '/' then '/' :: p2 else p2))
        ++ (if q2 ≠ [] then '?' :: q2 else [])
        ++ (if f ≠ [] then '#' :: f else []) →
      (netlocSplit REST).1 = nl := by
    intro REST hR
    have hR2 : REST = '/' :: '/' :: (nl ++
        ((sanitize (if p2 ≠ [] ∧ p2.head? ≠ some '/' then '/' :: p2 else p2)
          ++ (if q2 ≠ [] then '?' :: q2 else []))
          ++ (if f ≠ [] then '#' :: f else []))) := by
      rw [hR]
      simp [List.append_assoc]
    rw [hR2, netlocSplit_some nl _ (fun c hc => (hnl c hc).1)
      (htail _ rfl)]
  by_cases hs : sch ≠ []
  · rw [if_pos hs]
    rw [show ((sch ++ ':' :: (('/' :: '/' :: nl ++
        sanitize (if p2 ≠ [] ∧ p2.head? ≠ some '/' then '/' :: p2 else p2))))
        ++ (if q2 ≠ [] then '?' :: q2 else []))
        ++ (if f ≠ [] then '#' :: f else [])
        = sch ++ ':' :: (('/' :: '/' :: nl ++
          sanitize (if p2 ≠ [] ∧ p2.head? ≠ some '/' then '/' :: p2 else p2))
          ++ (if q2 ≠ [] then '?' :: q2 else [])
          ++ (if f ≠ [] then '#' :: f else [])) from by
      simp [List.append_assoc]]
    rw [schemeSplit_some sch _ hschc hs (hschh hs)]
    exact hform _ rfl
  · rw [if_neg hs]
    rw [schemeSplit_none _ ?_]
    · exact hform _ rfl
    · apply noScheme_form
      exact noScheme_cons_not_alpha '/' _ (by decide)

/-- After the `//`-insertion, the remainder of the reassembled URL is
empty or starts with a netloc delimiter. -/
theorem slashTail_form (p2 q2 f : Chars) :
    (sanitize (if p2 ≠ [] ∧ p2.head? ≠ some '/' then '/' :: p2 else p2)
      ++ (if q2 ≠ [] then '?' :: q2 else []))
      ++ (if f ≠ [] then '#' :: f else []) = [] ∨
    ∃ ch ct, (sanitize (if p2 ≠ [] ∧ p2.head? ≠ some '/' then '/' :: p2 else p2)
      ++ (if q2 ≠ [] then '?' :: q2 else []))
      ++ (if f ≠ [] then '#' :: f else []) = ch :: ct
      ∧ isNetlocDelim ch = true := by
  by_cases hp : p2 ≠ [] ∧ p2.head? ≠ some '/'
  · rw [if_pos hp, sanitize_cons_clean '/' p2 (by decide)]
    exact Or.inr ⟨'/', (sanitize p2 ++ (if q2 ≠ [] then '?' :: q2 else []))
      ++ (if f ≠ [] then '#' :: f else []),
      by rw [List.cons_append, List.cons_append], by decide⟩
  · rw [if_neg hp]
    push_neg at hp
    by_cases hp2 : p2 = []
    · subst hp2
      rw [show sanitize ([] : Chars) = [] from rfl, List.nil_append]
      by_cases h2 : q2 ≠ []
      · rw [if_pos h2]
        exact Or.inr ⟨'?', q2 ++ (if f ≠ [] then '#' :: f else []),
          by rw [List.cons_append], by decide⟩
      · rw [if_neg h2, List.nil_append]
        by_cases h3 : f ≠ []
        · rw [if_pos h3]
          exact Or.inr ⟨'#', f, rfl, by decide⟩
        · rw [if_neg h3]
          exact Or.inl rfl
    · have hhd := hp hp2
      rcases p2 with _ | ⟨c0, t0⟩
      · exact absurd rfl hp2
      · rw [List.head?_cons] at hhd
        have hc0 : c0 = '/' := Option.some.inj hhd
        subst hc0
        rw [sanitize_cons_clean '/' t0 (by decide)]
        exact Or.inr ⟨'/', (sanitize t0 ++ (if q2 ≠ [] then '?' :: q2 else []))
          ++ (if f ≠ [] then '#' :: f else []),
          by rw [List.cons_append, List.cons_append], by decide⟩

/-- Every character of `slashPart` is a slash, a netloc character, or a
path character. -/
theorem slashPart_mem (sch nl p2 : Chars) (c : Char)
    (h : c ∈ slashPart sch nl p2) : c = '/' ∨ c ∈ nl ∨ c ∈ p2 := by
  rw [slashPart] at h
  by_cases hcond : nl ≠ [] ∨ (sch ≠ [] ∧ usesNetloc.contains sch ∧
      p2.take 2 ≠ ['/', '/'])
  · rw [if_pos hcond] at h
    rcases List.mem_append.1 h with hm | hm
    · rcases List.mem_cons.1 hm with rfl | hm2
      · exact Or.inl rfl
      · rcases List.mem_cons.1 hm2 with rfl | hm3
        · exact Or.inl rfl
        · exact Or.inr (Or.inl hm3)
    · by_cases hsl : p2 ≠ [] ∧ p2.head? ≠ some '/'
      · rw [if_pos hsl] at hm
        rcases List.mem_cons.1 hm with rfl | hm2
        · exact Or.inl rfl
        · exact Or.inr (Or.inr hm2)
      · rw [if_neg hsl] at hm
        exact Or.inr (Or.inr hm)
  · rw [if_neg hcond] at h
    exact Or.inr (Or.inr h)

theorem schemeChar_not_qf (c : Char) (h : isSchemeChar c = true) :
    (c == '#') = false ∧ (c == '?') = false := by
  constructor
  · by_cases hb : c = '#'
    · subst hb
      exact absurd h (by decide)
    · simp [hb]
  · by_cases hb : c = '?'
    · subst hb
      exact absurd h (by decide)
    · simp [hb]

theorem delimFree_not_qf (c : Char) (h : isNetlocDelim c = false) :
    (c == '#') = false ∧ (c == '?') = false := by
  constructor
  · by_cases hb : c = '#'
    · subst hb
      exact absurd h (by decide)
    · simp [hb]
  · by_cases hb : c = '?'
    · subst hb
      exact absurd h (by decide)
    · simp [hb]

/-- The fragment and query stages recover an attached query and fragment
from a `#`- and `?`-free prefix. -/
theorem stages_recover (P q2 f : Chars)
    (hP : ∀ c ∈ P, (c == '#') = false ∧ (c == '?') = false)
    (hq2 : ∀ c ∈ q2, (c == '#') = false) :
    (querySplit (fragSplit ((P ++ (if q2 ≠ [] then '?' :: q2 else []))
      ++ (if f ≠ [] then '#' :: f else []))).1).2 = q2
    ∧ (fragSplit ((P ++ (if q2 ≠ [] then '?' :: q2 else []))
      ++ (if f ≠ [] then '#' :: f else []))).2 = f := by
  have hPq : ∀ c ∈ P, (c == '?') = false := fun c hc => (hP c hc).2
  have hPh : ∀ c ∈ P, (c == '#') = false := fun c hc => (hP c hc).1
  by_cases h2 : q2 ≠ []
  · rw [if_pos h2]
    have hpre : ∀ c ∈ P ++ '?' :: q2, (c == '#') = false := by
      intro c hc
      rcases List.mem_append.1 hc with hm | hm
      · exact hPh c hm
      · rcases List.mem_cons.1 hm with rfl | hm2
        · decide
        · exact hq2 c hm2
    by_cases h3 : f ≠ []
    · rw [if_pos h3]
      rw [fragSplit_some (P ++ '?' :: q2) f hpre]
      show (querySplit (P ++ '?' :: q2)).2 = q2 ∧ f = f
      rw [querySplit_some P q2 hPq]
      exact ⟨rfl, rfl⟩
    · rw [if_neg h3, List.append_nil]
      push_neg at h3
      rw [fragSplit_none _ hpre]
      show (querySplit (P ++ '?' :: q2)).2 = q2 ∧ ([] : Chars) = f
      rw [querySplit_some P q2 hPq]
      exact ⟨rfl, h3.symm⟩
  · rw [if_neg h2, List.append_nil]
    push_neg at h2
    by_cases h3 : f ≠ []
    · rw [if_pos h3]
      rw [fragSplit_some P f hPh]
      show (querySplit P).2 = q2 ∧ f = f
      rw [querySplit_none P hPq]
      exact ⟨h2.symm, rfl⟩
    · rw [if_neg h3, List.append_nil]
      push_neg at h3
      rw [fragSplit_none P hPh]
      show (querySplit P).2 = q2 ∧ ([] : Chars) = f
      rw [querySplit_none P hPq]
      exact ⟨h2.symm, h3.symm⟩

/-- The scheme and netloc stages cannot eat into an attached query or
fragment; the later stages then recover them. -/
theorem stages_protect (B q2 f : Chars)
    (hB : ∀ c ∈ B, (c == '#') = false ∧ (c == '?') = false)
    (hq2 : ∀ c ∈ q2, (c == '#') = false) :
    (querySplit (fragSplit (netlocSplit (schemeSplit
        ((B ++ (if q2 ≠ [] then '?' :: q2 else []))
         ++ (if f ≠ [] then '#' :: f else []))).2).2).1).2 = q2
    ∧ (fragSplit (netlocSplit (schemeSplit
        ((B ++ (if q2 ≠ [] then '?' :: q2 else []))
         ++ (if f ≠ [] then '#' :: f else []))).2).2).2 = f := by
  by_cases h2 : q2 ≠ []
  · rw [if_pos h2]
    rw [show (B ++ '?' :: q2) ++ (if f ≠ [] then '#' :: f else [])
        = B ++ '?' :: (q2 ++ (if f ≠ [] then '#' :: f else [])) from by simp]
    obtain ⟨A2, hA2, hA2m⟩ := schemeSplit_protect B '?'
      (q2 ++ (if f ≠ [] then '#' :: f else [])) (by decide) (by decide)
    rw [hA2]
    obtain ⟨A3, hA3, hA3m⟩ := netlocSplit_protect A2 '?'
      (q2 ++ (if f ≠ [] then '#' :: f else [])) (by decide) (by decide)
    rw [hA3]
    have hA3B : ∀ c ∈ A3, (c == '#') = false ∧ (c == '?') = false :=
      fun c hc => hB c (hA2m c (hA3m c hc))
    rw [show A3 ++ '?' :: (q2 ++ (if f ≠ [] then '#' :: f else []))
        = (A3 ++ '?' :: q2) ++ (if f ≠ [] then '#' :: f else []) from by simp]
    have hsr := stages_recover A3 q2 f hA3B hq2
    rw [if_pos h2] at hsr
    exact hsr
  · rw [if_neg h2, List.append_nil]
    push_neg at h2
    subst h2
    by_cases h3 : f ≠ []
    · rw [if_pos h3]
      obtain ⟨A2, hA2, hA2m⟩ := schemeSplit_protect B '#' f
        (by decide) (by decide)
      rw [hA2]
      obtain ⟨A3, hA3, hA3m⟩ := netlocSplit_protect A2 '#' f
        (by decide) (by decide)
      rw [hA3]
      have hA3B : ∀ c ∈ A3, (c == '#') = false ∧ (c == '?') = false :=
        fun c hc => hB c (hA2m c (hA3m c hc))
      have hsr := stages_recover A3 [] f hA3B (by simp)
      rw [if_neg (fun hx => hx rfl), List.append_nil, if_pos h3] at hsr
      exact hsr
    · rw [if_neg h3, List.append_nil]
      push_neg at h3
      subst h3
      have hss := (schemeSplit_spec B).2.2
      have hns := (netlocSplit_spec (schemeSplit B).2).2
      have hR : ∀ c ∈ (netlocSplit (schemeSplit B).2).2,
          (c == '#') = false ∧ (c == '?') = false :=
        fun c hc => hB c (hss c (hns c hc))
      constructor
      · rw [fragSplit_none _ (fun c hc => (hR c hc).1)]
        show (querySplit (netlocSplit (schemeSplit B).2).2).2 = []
        rw [querySplit_none _ (fun c hc => (hR c hc).2)]
      · rw [fragSplit_none _ (fun c hc => (hR c hc).1)]

/-- Re-parsing yields an empty netloc when none was attached and the
path part cannot be mistaken for one. -/
theorem reparse_netloc_none (sch p2 q2 f : Chars)
    (hschc : ∀ c ∈ sch, isSchemeChar c = true ∧ Char.toLower c = c)
    (hschh : sch ≠ [] → isAsciiAlpha (sch.headD ' ') = true)
    (hq2c : ∀ c ∈ q2, unsafeChar c = false)
    (hfc : ∀ c ∈ f, unsafeChar c = false)
    (hnos : sch = [] → noScheme (sanitize p2))
    (hp2take : (sanitize p2).take 2 ≠ ['/', '/']) :
    (urlsplit (urlunsplit ⟨sch, [], p2, q2, f⟩)).netloc = [] := by
  rw [urlsplit_netloc_def,
    sanitize_unsplit sch [] p2 q2 f
      (fun c hc => unsafeChar_of_schemeChar (hschc c hc).1) hq2c hfc]
  by_cases hcond : sch ≠ [] ∧ usesNetloc.contains sch ∧ p2.take 2 ≠ ['/', '/']
  · have hsp := (sanitize_slashPart sch [] p2 (by simp)).2 (Or.inr hcond)
    rw [hsp, if_pos hcond.1]
    have hform : ∀ REST : Chars,
        REST = '/' :: '/' :: (([] : Chars) ++
          ((sanitize (if p2 ≠ [] ∧ p2.head? ≠ some '/' then '/' :: p2 else p2)
            ++ (if q2 ≠ [] then '?' :: q2 else []))
            ++ (if f ≠ [] then '#' :: f else []))) →
        (netlocSplit REST).1 = [] := by
      intro REST hR
      rw [hR, netlocSplit_some [] _ (by simp) (slashTail_form p2 q2 f)]
    rw [show ((sch ++ ':' :: ('/' :: '/' :: [] ++
        sanitize (if p2 ≠ [] ∧ p2.head? ≠ some '/' then '/' :: p2 else p2)))
        ++ (if q2 ≠ [] then '?' :: q2 else []))
        ++ (if f ≠ [] then '#' :: f else [])
        = sch ++ ':' :: '/' :: '/' :: (([] : Chars) ++
          ((sanitize (if p2 ≠ [] ∧ p2.head? ≠ some '/' then '/' :: p2 else p2)
            ++ (if q2 ≠ [] then '?' :: q2 else []))
            ++ (if f ≠ [] then '#' :: f else []))) from by
      simp [List.append_assoc]]
    rw [schemeSplit_some sch _ hschc hcond.1 (hschh hcond.1)]
    exact hform _ rfl
  · have hsp := (sanitize_slashPart sch [] p2 (by simp)).1
      (fun h => h.elim (fun h1 => absurd rfl h1) hcond)
    rw [hsp]
    have hnone : ∀ REST : Chars,
        REST = (sanitize p2 ++ (if q2 ≠ [] then '?' :: q2 else []))
          ++ (if f ≠ [] then '#' :: f else []) →
        (netlocSplit REST).1 = [] := by
      intro REST hR
      rw [hR, netlocSplit_none _ (take_two_append_ne _ q2 f hp2take)]
    by_cases hs : sch ≠ []
    · rw [if_pos hs]
      rw [show ((sch ++ ':' :: sanitize p2)
          ++ (if q2 ≠ [] then '?' :: q2 else []))
          ++ (if f ≠ [] then '#' :: f else [])
          = sch ++ ':' :: ((sanitize p2 ++ (if q2 ≠ [] then '?' :: q2 else []))
            ++ (if f ≠ [] then '#' :: f else [])) from by
        simp [List.append_assoc]]
      rw [schemeSplit_some sch _ hschc hs (hschh hs)]
      exact hnone _ rfl
    · rw [if_neg hs]
      push_neg at hs
      rw [schemeSplit_none _ (noScheme_form _ q2 f (hnos hs))]
      exact hnone _ rfl

/-- Re-parsing recovers the query and the fragment. -/
theorem reparse_query_frag (sch nl p2 q2 f : Chars)
    (hschc : ∀ c ∈ sch, isSchemeChar c = true ∧ Char.toLower c = c)
    (hnlc : ∀ c ∈ nl, isNetlocDelim c = false ∧ unsafeChar c = false)
    (hq2c : ∀ c ∈ q2, (c == '#') = false ∧ unsafeChar c = false)
    (hfc : ∀ c ∈ f, unsafeChar c = false)
    (hp2 : ∀ c ∈ p2, (c == '#') = false ∧ (c == '?') = false) :
    (urlsplit (urlunsplit ⟨sch, nl, p2, q2, f⟩)).query = q2
    ∧ (urlsplit (urlunsplit ⟨sch, nl, p2, q2, f⟩)).fragment = f := by
  have hBase : ∀ c ∈ (if sch ≠ [] then
      sch ++ ':' :: sanitize (slashPart sch nl p2)
      else sanitize (slashPart sch nl p2)),
      (c == '#') = false ∧ (c == '?') = false := by
    have hsp : ∀ c ∈ sanitize (slashPart sch nl p2),
        (c == '#') = false ∧ (c == '?') = false := by
      intro c hc
      rcases slashPart_mem sch nl p2 c (mem_sanitize c _ hc).1 with
        rfl | hm | hm
      · exact ⟨by decide, by decide⟩
      · exact delimFree_not_qf c (hnlc c hm).1
      · exact hp2 c hm
    by_cases hs : sch ≠ []
    · rw [if_pos hs]
      intro c hc
      rcases List.mem_append.1 hc with hm | hm
      · exact schemeChar_not_qf c (hschc c hm).1
      · rcases List.mem_cons.1 hm with rfl | hm2
        · exact ⟨by decide, by decide⟩
        · exact hsp c hm2
    · rw [if_neg hs]
      exact hsp
  rw [urlsplit_query_def, urlsplit_fragment_def,
    sanitize_unsplit sch nl p2 q2 f
      (fun c hc => unsafeChar_of_schemeChar (hschc c hc).1)
      (fun c hc => (hq2c c hc).2) hfc]
  exact stages_protect _ q2 f hBase (fun c hc => (hq2c c hc).1)

/-! ### Characters produced by the percent encoder -/

theorem safeByte_iff (b : Nat) : safeByte b = true ↔
    (65 ≤ b ∧ b ≤ 90) ∨ (97 ≤ b ∧ b ≤ 122) ∨ (48 ≤ b ∧ b ≤ 57) ∨
    b = 95 ∨ b = 46 ∨ b = 45 ∨ b = 126 := by
  simp [safeByte, Bool.or_eq_true_iff, Bool.and_eq_true_iff,
    decide_eq_true_eq, beq_iff_eq]
  tauto

theorem hexUpper_prop : ∀ k, k < 16 →
    (hexUpper k == '#') = false ∧ (hexUpper k == '?') = false ∧
    (hexUpper k == '=') = false ∧ (hexUpper k == '&') = false ∧
    unsafeChar (hexUpper k) = false := by decide

/-- Every character emitted by `quoteByte` is free of the URL
metacharacters `#?=&` and of the removed bytes tab/CR/LF. -/
theorem quoteByte_chars (b : Nat) (c : Char) (h : c ∈ quoteByte b) :
    (c == '#') = false ∧ (c == '?') = false ∧ (c == '=') = false ∧
    (c == '&') = false ∧ unsafeChar c = false := by
  rw [quoteByte] at h
  by_cases hs : safeByte b = true
  · rw [if_pos hs] at h
    rw [List.mem_singleton] at h
    subst h
    have hb := (safeByte_iff b).1 hs
    have ht : (Char.ofNat b).toNat = b := toNat_ofNat_small b (by omega)
    refine ⟨beq_char_eq_false (by
        rw [ht, show ('#').toNat = 35 from by decide]
        omega),
      beq_char_eq_false (by
        rw [ht, show ('?').toNat = 63 from by decide]
        omega),
      beq_char_eq_false (by
        rw [ht, show ('=').toNat = 61 from by decide]
        omega),
      beq_char_eq_false (by
        rw [ht, show ('&').toNat = 38 from by decide]
        omega), ?_⟩
    rcases hu : unsafeChar (Char.ofNat b) with _ | _
    · rfl
    · rcases (unsafeChar_iff _).1 hu with h1 | h1 | h1 <;>
        (rw [ht] at h1; omega)
  · rw [if_neg hs] at h
    by_cases h32 : b = 32
    · rw [if_pos h32] at h
      rw [List.mem_singleton] at h
      subst h
      exact ⟨by decide, by decide, by decide, by decide, by decide⟩
    · rw [if_neg h32] at h
      rcases List.mem_cons.1 h with rfl | h2
      · exact ⟨by decide, by decide, by decide, by decide, by decide⟩
      · rcases List.mem_cons.1 h2 with rfl | h3
        · exact hexUpper_prop _ (Nat.mod_lt _ (by omega))
        · rcases List.mem_cons.1 h3 with rfl | h4
          · exact hexUpper_prop _ (Nat.mod_lt _ (by omega))
          · simp at h4

theorem quotePlus_chars (s : Chars) (c : Char) (h : c ∈ quotePlus s) :
    (c == '#') = false ∧ (c == '?') = false ∧ (c == '=') = false ∧
    (c == '&') = false ∧ unsafeChar c = false := by
  rw [quotePlus, quotePlusBytes] at h
  rw [List.mem_flatMap] at h
  obtain ⟨b, _, hb⟩ := h
  exact quoteByte_chars b c hb

theorem intercalate_amp_cons_cons (x y : Chars) (t : List Chars) :
    List.intercalate ['&'] (x :: y :: t)
      = x ++ '&' :: List.intercalate ['&'] (y :: t) := by
  rw [List.intercalate, List.intercalate, List.intersperse_cons_cons,
    List.flatten_cons, List.flatten_cons, List.singleton_append]

theorem mem_intercalate_amp (ls : List Chars) :
    ∀ c : Char, c ∈ List.intercalate ['&'] ls → c = '&' ∨ ∃ l ∈ ls, c ∈ l := by
  induction ls with
  | nil =>
    intro c h
    simp [List.intercalate] at h
  | cons x xs ih =>
    intro c h
    rcases xs with _ | ⟨y, t⟩
    · rw [show List.intercalate ['&'] [x] = x from by
        rw [List.intercalate, List.intersperse_single, List.flatten_cons,
          List.flatten_nil, List.append_nil]] at h
      exact Or.inr ⟨x, by simp, h⟩
    · rw [intercalate_amp_cons_cons x y t] at h
      rcases List.mem_append.1 h with hm | hm
      · exact Or.inr ⟨x, by simp, hm⟩
      · rcases List.mem_cons.1 hm with rfl | hm2
        · exact Or.inl rfl
        · rcases ih c hm2 with h1 | ⟨l, hl, hcl⟩
          · exact Or.inl h1
          · exact Or.inr ⟨l, List.mem_cons_of_mem x hl, hcl⟩

theorem urlencode_chars (ps : List (Chars × Chars)) (c : Char)
    (h : c ∈ urlencode ps) :
    (c == '#') = false ∧ (c == '?') = false ∧ unsafeChar c = false := by
  rw [urlencode] at h
  rcases mem_intercalate_amp _ c h with rfl | ⟨l, hl, hcl⟩
  · exact ⟨by decide, by decide, by decide⟩
  · rw [List.mem_map] at hl
    obtain ⟨p, _, rfl⟩ := hl
    rcases List.mem_append.1 hcl with hm | hm
    · have h5 := quotePlus_chars p.1 c hm
      exact ⟨h5.1, h5.2.1, h5.2.2.2.2⟩
    · rcases List.mem_cons.1 hm with rfl | hm2
      · exact ⟨by decide, by decide, by decide⟩
      · have h5 := quotePlus_chars p.2 c hm2
        exact ⟨h5.1, h5.2.1, h5.2.2.2.2⟩

theorem encode_params_chars (ps : List (Chars × Option Chars)) (c : Char)
    (h : c ∈ encode_params ps) :
    (c == '#') = false ∧ (c == '?') = false ∧ unsafeChar c = false := by
  rw [encode_params] at h
  exact urlencode_chars _ c h

/-! ### C5: the appended query string -/

theorem buildPath_nil (u : Chars) : buildPath u [] = (urlparse u).path := by
  simp only [buildPath]
  rw [if_neg (fun h => h rfl)]

/-- C5: for a base URL whose parse carries a nonempty query string and a
nonempty parameter mapping, the query string of `build_url`'s output is
exactly the original query string with the newly encoded parameters
appended directly after it — the original parameters are neither
replaced nor merged (in fact no separator is even inserted). -/
theorem build_url_appends_query (u : Chars)
    (ps : List (Chars × Option Chars))
    (hq : (urlparse u).query ≠ []) (hps : ps ≠ []) :
    (urlparse (build_url u [] ps)).query =
      (urlparse u).query ++ encode_params ps := by
  have hinv := urlsplit_inv u
  have hpm := urlparse_path_params_mem u
  have hbq : buildQuery u ps = (urlparse u).query ++ encode_params ps := by
    rw [buildQuery]
    rw [if_pos hps, if_pos hq]
  have hbu : build_url u [] ps = urlunsplit
      ⟨(urlparse u).scheme, (urlparse u).netloc,
       (if (urlparse u).params ≠ []
        then (urlparse u).path ++ ';' :: (urlparse u).params
        else (urlparse u).path),
       buildQuery u ps, (urlparse u).fragment⟩ := by
    simp only [build_url, urlunparse, buildPath_nil]
  rw [hbu, urlparse_query]
  have hq2c : ∀ c ∈ buildQuery u ps,
      (c == '#') = false ∧ unsafeChar c = false := by
    rw [hbq]
    intro c hc
    rcases List.mem_append.1 hc with hm | hm
    · rw [urlparse_query] at hm
      exact hinv.2.2.2.2.1 c hm
    · have h5 := encode_params_chars ps c hm
      exact ⟨h5.1, h5.2.2⟩
  have hp2 : ∀ c ∈ (if (urlparse u).params ≠ []
      then (urlparse u).path ++ ';' :: (urlparse u).params
      else (urlparse u).path),
      (c == '#') = false ∧ (c == '?') = false := by
    intro c hc
    by_cases hpar : (urlparse u).params ≠ []
    · rw [if_pos hpar] at hc
      rcases List.mem_append.1 hc with hm | hm
      · have h2 := hinv.2.2.2.1 c (hpm.1 c hm)
        exact ⟨h2.1, h2.2.1⟩
      · rcases List.mem_cons.1 hm with rfl | hm2
        · exact ⟨by decide, by decide⟩
        · have h2 := hinv.2.2.2.1 c (hpm.2 c hm2)
          exact ⟨h2.1, h2.2.1⟩
    · rw [if_neg hpar] at hc
      have h2 := hinv.2.2.2.1 c (hpm.1 c hc)
      exact ⟨h2.1, h2.2.1⟩
  have hres := reparse_query_frag (urlparse u).scheme (urlparse u).netloc
      _ (buildQuery u ps) (urlparse u).fragment
      (by rw [urlparse_scheme]; exact hinv.1)
      (by rw [urlparse_netloc]; exact hinv.2.2.1)
      hq2c
      (by rw [urlparse_fragment]; exact hinv.2.2.2.2.2)
      hp2
  rw [hres.1, hbq]

/-- Witness for C5 at the concrete base URL `http://h/p?b=25` and the
parameter mapping `{b: 2}`: the output query string is `b=25b=2`. -/
theorem build_url_appends_query_witness :
    (urlparse "http://h/p?b=25".data).query ≠ [] ∧
    ([(("b".data : Chars), some ("2".data : Chars))] ≠ []) ∧
    (urlparse (build_url "http://h/p?b=25".data []
        [("b".data, some "2".data)])).query
      = (urlparse "http://h/p?b=25".data).query
        ++ encode_params [("b".data, some "2".data)] :=
  ⟨by decide, by decide,
    build_url_appends_query _ _ (by decide) (by decide)⟩

/-! ### Injectivity of the percent encoder -/

theorem hexUpper_inj : ∀ j, j < 16 → ∀ k, k < 16 →
    hexUpper j = hexUpper k → j = k := by decide

theorem quoteByte_ne_nil (b : Nat) : quoteByte b ≠ [] := by
  rw [quoteByte]
  by_cases hs : safeByte b = true
  · rw [if_pos hs]
    simp
  · rw [if_neg hs]
    by_cases h32 : b = 32
    · rw [if_pos h32]
      simp
    · rw [if_neg h32]
      simp

/-- `quoteByte` is a prefix code on bytes: equal concatenations starting
with the quotings of two bytes force the bytes and tails to agree. -/
theorem quoteByte_cancel (a b : Nat) (ha : a < 256) (hb : b < 256)
    (x y : Chars) (h : quoteByte a ++ x = quoteByte b ++ y) :
    a = b ∧ x = y := by
  rw [quoteByte, quoteByte] at h
  by_cases hsa : safeByte a = true <;> by_cases hsb : safeByte b = true
  · rw [if_pos hsa, if_pos hsb, List.singleton_append,
      List.singleton_append] at h
    refine ⟨?_, List.tail_eq_of_cons_eq h⟩
    have h2 := congrArg Char.toNat (List.head_eq_of_cons_eq h)
    rwa [toNat_ofNat_small a ha, toNat_ofNat_small b hb] at h2
  · rw [if_pos hsa, if_neg hsb] at h
    exfalso
    by_cases h32 : b = 32
    · rw [if_pos h32, List.singleton_append, List.singleton_append] at h
      have h2 := congrArg Char.toNat (List.head_eq_of_cons_eq h)
      rw [toNat_ofNat_small a ha, show ('+').toNat = 43 from by decide] at h2
      rw [h2] at hsa
      exact absurd hsa (by decide)
    · rw [if_neg h32, List.singleton_append, List.cons_append] at h
      have h2 := congrArg Char.toNat (List.head_eq_of_cons_eq h)
      rw [toNat_ofNat_small a ha, show ('%').toNat = 37 from by decide] at h2
      rw [h2] at hsa
      exact absurd hsa (by decide)
  · rw [if_neg hsa, if_pos hsb] at h
    exfalso
    by_cases h32 : a = 32
    · rw [if_pos h32, List.singleton_append, List.singleton_append] at h
      have h2 := congrArg Char.toNat (List.head_eq_of_cons_eq h)
      rw [toNat_ofNat_small b hb, show ('+').toNat = 43 from by decide] at h2
      rw [← h2] at hsb
      exact absurd hsb (by decide)
    · rw [if_neg h32, List.singleton_append, List.cons_append] at h
      have h2 := congrArg Char.toNat (List.head_eq_of_cons_eq h)
      rw [toNat_ofNat_small b hb, show ('%').toNat = 37 from by decide] at h2
      rw [← h2] at hsb
      exact absurd hsb (by decide)
  · rw [if_neg hsa, if_neg hsb] at h
    by_cases h32a : a = 32 <;> by_cases h32b : b = 32
    · rw [if_pos h32a, if_pos h32b, List.singleton_append,
        List.singleton_append] at h
      exact ⟨h32a.trans h32b.symm, List.tail_eq_of_cons_eq h⟩
    · rw [if_pos h32a, if_neg h32b, List.singleton_append,
        List.cons_append] at h
      exact absurd (List.head_eq_of_cons_eq h) (by decide)
    · rw [if_neg h32a, if_pos h32b, List.cons_append,
        List.singleton_append] at h
      exact absurd (List.head_eq_of_cons_eq h) (by decide)
    · rw [if_neg h32a, if_neg h32b] at h
      simp only [List.cons_append, List.nil_append] at h
      have h2 := List.tail_eq_of_cons_eq h
      have h3 := List.tail_eq_of_cons_eq h2
      have e1 := hexUpper_inj (a / 16 % 16) (Nat.mod_lt _ (by omega))
        (b / 16 % 16) (Nat.mod_lt _ (by omega))
        (List.head_eq_of_cons_eq h2)
      have e2 := hexUpper_inj (a % 16) (Nat.mod_lt _ (by omega))
        (b % 16) (Nat.mod_lt _ (by omega))
        (List.head_eq_of_cons_eq h3)
      exact ⟨by omega, List.tail_eq_of_cons_eq h3⟩

theorem quotePlusBytes_inj : ∀ (as bs : List Nat), (∀ a ∈ as, a < 256) →
    (∀ b ∈ bs, b < 256) → quotePlusBytes as = quotePlusBytes bs →
    as = bs := by
  intro as
  induction as with
  | nil =>
    intro bs _ _ h
    rcases bs with _ | ⟨b, bt⟩
    · rfl
    · exfalso
      rw [quotePlusBytes, quotePlusBytes, List.flatMap_nil,
        List.flatMap_cons] at h
      rcases he : quoteByte b with _ | ⟨c, t⟩
      · exact quoteByte_ne_nil b he
      · rw [he, List.cons_append] at h
        exact List.cons_ne_nil c _ h.symm
  | cons a t ih =>
    intro bs hat hbt h
    rcases bs with _ | ⟨b, bt⟩
    · exfalso
      rw [quotePlusBytes, quotePlusBytes, List.flatMap_nil,
        List.flatMap_cons] at h
      rcases he : quoteByte a with _ | ⟨c, ct⟩
      · exact quoteByte_ne_nil a he
      · rw [he, List.cons_append] at h
        exact List.cons_ne_nil c _ h
    · rw [quotePlusBytes, quotePlusBytes, List.flatMap_cons,
        List.flatMap_cons] at h
      obtain ⟨hab, htail⟩ := quoteByte_cancel a b
        (hat a (by simp)) (hbt b (by simp)) _ _ h
      subst hab
      rw [ih bt (fun d hd => hat d (List.mem_cons_of_mem a hd))
        (fun d hd => hbt d (List.mem_cons_of_mem a hd)) htail]

theorem utf8Bytes_lt (c : Char) : ∀ b ∈ utf8Bytes c, b < 256 := by
  intro b hb
  have hc := char_toNat_lt c
  simp only [utf8Bytes] at hb
  by_cases h1 : c.toNat < 128
  · rw [if_pos h1, List.mem_singleton] at hb
    omega
  · rw [if_neg h1] at hb
    by_cases h2 : c.toNat < 2048
    · rw [if_pos h2] at hb
      rcases List.mem_cons.1 hb with rfl | hb2
      · omega
      · rw [List.mem_singleton] at hb2
        omega
    · rw [if_neg h2] at hb
      by_cases h3 : c.toNat < 65536
      · rw [if_pos h3] at hb
        rcases List.mem_cons.1 hb with rfl | hb2
        · omega
        · rcases List.mem_cons.1 hb2 with rfl | hb3
          · omega
          · rw [List.mem_singleton] at hb3
            omega
      · rw [if_neg h3] at hb
        rcases List.mem_cons.1 hb with rfl | hb2
        · omega
        · rcases List.mem_cons.1 hb2 with rfl | hb3
          · omega
          · rcases List.mem_cons.1 hb3 with rfl | hb4
            · omega
            · rw [List.mem_singleton] at hb4
              omega

theorem utf8Bytes_ne_nil (c : Char) : utf8Bytes c ≠ [] := by
  simp only [utf8Bytes]
  by_cases h1 : c.toNat < 128
  · rw [if_pos h1]
    simp
  · rw [if_neg h1]
    by_cases h2 : c.toNat < 2048
    · rw [if_pos h2]
      simp
    · rw [if_neg h2]
      by_cases h3 : c.toNat < 65536
      · rw [if_pos h3]
        simp
      · rw [if_neg h3]
        simp

/-- UTF-8 is a prefix code: the first byte determines the length, so
equal concatenations force the characters and tails to agree. -/
theorem utf8_cancel (c d : Char) (x y : List Nat)
    (h : utf8Bytes c ++ x = utf8Bytes d ++ y) : c = d ∧ x = y := by
  have hcb := char_toNat_lt c
  have hdb := char_toNat_lt d
  simp only [utf8Bytes] at h
  by_cases hc1 : c.toNat < 128 <;> by_cases hd1 : d.toNat < 128
  · rw [if_pos hc1, if_pos hd1] at h
    simp only [List.cons_append, List.nil_append] at h
    exact ⟨char_toNat_inj (List.head_eq_of_cons_eq h),
      List.tail_eq_of_cons_eq h⟩
  · rw [if_pos hc1, if_neg hd1] at h
    exfalso
    by_cases hd2 : d.toNat < 2048
    · rw [if_pos hd2] at h
      simp only [List.cons_append, List.nil_append] at h
      have h1 := List.head_eq_of_cons_eq h
      omega
    · rw [if_neg hd2] at h
      by_cases hd3 : d.toNat < 65536
      · rw [if_pos hd3] at h
        simp only [List.cons_append, List.nil_append] at h
        have h1 := List.head_eq_of_cons_eq h
        omega
      · rw [if_neg hd3] at h
        simp only [List.cons_append, List.nil_append] at h
        have h1 := List.head_eq_of_cons_eq h
        omega
  · rw [if_neg hc1, if_pos hd1] at h
    exfalso
    by_cases hc2 : c.toNat < 2048
    · rw [if_pos hc2] at h
      simp only [List.cons_append, List.nil_append] at h
      have h1 := List.head_eq_of_cons_eq h
      omega
    · rw [if_neg hc2] at h
      by_cases hc3 : c.toNat < 65536
      · rw [if_pos hc3] at h
        simp only [List.cons_append, List.nil_append] at h
        have h1 := List.head_eq_of_cons_eq h
        omega
      · rw [if_neg hc3] at h
        simp only [List.cons_append, List.nil_append] at h
        have h1 := List.head_eq_of_cons_eq h
        omega
  · rw [if_neg hc1, if_neg hd1] at h
    by_cases hc2 : c.toNat < 2048 <;> by_cases hd2 : d.toNat < 2048
    · rw [if_pos hc2, if_pos hd2] at h
      simp only [List.cons_append, List.nil_append] at h
      have h1 := List.head_eq_of_cons_eq h
      have ht := List.tail_eq_of_cons_eq h
      have h2 := List.head_eq_of_cons_eq ht
      refine ⟨char_toNat_inj (by omega), List.tail_eq_of_cons_eq ht⟩
    · rw [if_pos hc2, if_neg hd2] at h
      exfalso
      by_cases hd3 : d.toNat < 65536
      · rw [if_pos hd3] at h
        simp only [List.cons_append, List.nil_append] at h
        have h1 := List.head_eq_of_cons_eq h
        omega
      · rw [if_neg hd3] at h
        simp only [List.cons_append, List.nil_append] at h
        have h1 := List.head_eq_of_cons_eq h
        omega
    · rw [if_neg hc2, if_pos hd2] at h
      exfalso
      by_cases hc3 : c.toNat < 65536
      · rw [if_pos hc3] at h
        simp only [List.cons_append, List.nil_append] at h
        have h1 := List.head_eq_of_cons_eq h
        omega
      · rw [if_neg hc3] at h
        simp only [List.cons_append, List.nil_append] at h
        have h1 := List.head_eq_of_cons_eq h
        omega
    · rw [if_neg hc2, if_neg hd2] at h
      by_cases hc3 : c.toNat < 65536 <;> by_cases hd3 : d.toNat < 65536
      · rw [if_pos hc3, if_pos hd3] at h
        simp only [List.cons_append, List.nil_append] at h
        have h1 := List.head_eq_of_cons_eq h
        have ht := List.tail_eq_of_cons_eq h
        have h2 := List.head_eq_of_cons_eq ht
        have ht2 := List.tail_eq_of_cons_eq ht
        have h3 := List.head_eq_of_cons_eq ht2
        refine ⟨char_toNat_inj (by omega), List.tail_eq_of_cons_eq ht2⟩
      · rw [if_pos hc3, if_neg hd3] at h
        exfalso
        simp only [List.cons_append, List.nil_append] at h
        have h1 := List.head_eq_of_cons_eq h
        omega
      · rw [if_neg hc3, if_pos hd3] at h
        exfalso
        simp only [List.cons_append, List.nil_append] at h
        have h1 := List.head_eq_of_cons_eq h
        omega
      · rw [if_neg hc3, if_neg hd3] at h
        simp only [List.cons_append, List.nil_append] at h
        have h1 := List.head_eq_of_cons_eq h
        have ht := List.tail_eq_of_cons_eq h
        have h2 := List.head_eq_of_cons_eq ht
        have ht2 := List.tail_eq_of_cons_eq ht
        have h3 := List.head_eq_of_cons_eq ht2
        have ht3 := List.tail_eq_of_cons_eq ht2
        have h4 := List.head_eq_of_cons_eq ht3
        refine ⟨char_toNat_inj (by omega), List.tail_eq_of_cons_eq ht3⟩

theorem flatMap_utf8_inj : ∀ (s t : Chars),
    s.flatMap utf8Bytes = t.flatMap utf8Bytes → s = t := by
  intro s
  induction s with
  | nil =>
    intro t h
    rcases t with _ | ⟨d, dt⟩
    · rfl
    · exfalso
      rw [List.flatMap_nil, List.flatMap_cons] at h
      rcases he : utf8Bytes d with _ | ⟨b, bt⟩
      · exact utf8Bytes_ne_nil d he
      · rw [he, List.cons_append] at h
        exact List.cons_ne_nil b _ h.symm
  | cons c ct ih =>
    intro t h
    rcases t with _ | ⟨d, dt⟩
    · exfalso
      rw [List.flatMap_nil, List.flatMap_cons] at h
      rcases he : utf8Bytes c with _ | ⟨b, bt⟩
      · exact utf8Bytes_ne_nil c he
      · rw [he, List.cons_append] at h
        exact List.cons_ne_nil b _ h
    · rw [List.flatMap_cons, List.flatMap_cons] at h
      obtain ⟨hcd, htail⟩ := utf8_cancel c d _ _ h
      subst hcd
      rw [ih dt htail]

/-- `quote_plus` is injective on strings: distinct inputs produce
distinct encodings. -/
theorem quotePlus_inj (s t : Chars) (h : quotePlus s = quotePlus t) :
    s = t := by
  rw [quotePlus, quotePlus] at h
  have h2 := quotePlusBytes_inj (s.flatMap utf8Bytes) (t.flatMap utf8Bytes)
    (fun a ha => by
      rw [List.mem_flatMap] at ha
      obtain ⟨c, _, hc⟩ := ha
      exact utf8Bytes_lt c a hc)
    (fun a ha => by
      rw [List.mem_flatMap] at ha
      obtain ⟨c, _, hc⟩ := ha
      exact utf8Bytes_lt c a hc) h
  exact flatMap_utf8_inj s t h2

/-! ### Query strings round-trip through `queryPairs` -/

theorem countP_eq_one_of_nodup_mem {α : Type} [DecidableEq α] (p : α)
    (l : List α) (hd : l.Nodup) (hm : p ∈ l) :
    l.countP (fun x => decide (x = p)) = 1 := by
  induction l with
  | nil => simp at hm
  | cons a t ih =>
    rw [List.countP_cons]
    rcases List.mem_cons.1 hm with rfl | hm2
    · have hpn : p ∉ t := (List.nodup_cons.1 hd).1
      have hz : t.countP (fun x => decide (x = p)) = 0 := by
        rw [List.countP_eq_zero]
        intro x hx
        simp only [decide_eq_true_eq]
        intro he
        exact hpn (he ▸ hx)
      simp [hz]
    · have han : a ∉ t := (List.nodup_cons.1 hd).1
      have hne : a ≠ p := fun he => han (he ▸ hm2)
      rw [ih (List.nodup_cons.1 hd).2 hm2]
      simp [hne]

/-- `queryPairs` recovers the encoded pairs from an `urlencode` output. -/
theorem queryPairs_urlencode (L : List (Chars × Chars)) :
    queryPairs (urlencode L) =
      L.map fun q => (quotePlus q.1, quotePlus q.2) := by
  rcases L with _ | ⟨p0, L1⟩
  · rfl
  · have hnoamp : ∀ piece ∈ (p0 :: L1).map
        (fun p => quotePlus p.1 ++ '=' :: quotePlus p.2), '&' ∉ piece := by
      intro piece hp
      rw [List.mem_map] at hp
      obtain ⟨q, _, rfl⟩ := hp
      intro hmem
      rcases List.mem_append.1 hmem with hm | hm
      · have h5 := quotePlus_chars q.1 '&' hm
        simp at h5
      · rcases List.mem_cons.1 hm with he | hm2
        · exact absurd he (by decide)
        · have h5 := quotePlus_chars q.2 '&' hm2
          simp at h5
    have hne : ((p0 :: L1).map fun p =>
        quotePlus p.1 ++ '=' :: quotePlus p.2) ≠ [] := by simp
    have hsplit := List.splitOn_intercalate _ '&' hnoamp hne
    have hqne : urlencode (p0 :: L1) ≠ [] := by
      intro h0
      rw [urlencode] at h0
      rw [h0, List.splitOn_nil, List.map_cons] at hsplit
      have h1 := List.head_eq_of_cons_eq hsplit
      rcases List.append_eq_nil.1 h1.symm with ⟨_, h2⟩
      exact List.cons_ne_nil '=' _ h2
    rw [queryPairs, if_neg hqne]
    rw [show urlencode (p0 :: L1) = List.intercalate ['&']
        ((p0 :: L1).map fun p => quotePlus p.1 ++ '=' :: quotePlus p.2)
        from rfl,
      hsplit, List.map_map]
    apply List.map_congr_left
    intro q _
    show ((quotePlus q.1 ++ '=' :: quotePlus q.2).takeWhile
        (fun c => !(c == '=')),
      ((quotePlus q.1 ++ '=' :: quotePlus q.2).dropWhile
        (fun c => !(c == '='))).tail)
      = (quotePlus q.1, quotePlus q.2)
    rw [takeWhile_middle _ '=' _ (fun c hc => by
        have h5 := quotePlus_chars q.1 c hc
        simp [h5.2.2.1]) (by decide),
      dropWhile_middle _ '=' _ (fun c hc => by
        have h5 := quotePlus_chars q.1 c hc
        simp [h5.2.2.1]) (by decide)]
    rfl

theorem encode_params_pairs (ps : List (Chars × Option Chars)) :
    queryPairs (encode_params ps) = encodedPairs ps := by
  rw [encode_params, queryPairs_urlencode, encodedPairs, List.map_filterMap]
  apply List.filterMap_congr
  intro p _
  rcases p2 : p.2 with _ | v
  · rfl
  · rfl

theorem encodedPairs_mem (ps : List (Chars × Option Chars)) (k v : Chars)
    (h : (k, some v) ∈ ps) :
    (quotePlus k, quotePlus v) ∈ encodedPairs ps := by
  rw [encodedPairs]
  exact List.mem_filterMap.2 ⟨(k, some v), h, rfl⟩

theorem encodedPairs_key_mem (ps : List (Chars × Option Chars))
    (q : Chars × Chars) (h : q ∈ encodedPairs ps) :
    ∃ p ∈ ps, ∃ v, p.2 = some v ∧ q = (quotePlus p.1, quotePlus v) := by
  rw [encodedPairs] at h
  obtain ⟨p, hp, he⟩ := List.mem_filterMap.1 h
  rcases p2 : p.2 with _ | v
  · rw [p2] at he
    simp at he
  · rw [p2] at he
    exact ⟨p, hp, v, p2, (Option.some.inj he).symm⟩

theorem encodedPairs_nodup (ps : List (Chars × Option Chars))
    (h : (ps.map Prod.fst).Nodup) : (encodedPairs ps).Nodup := by
  induction ps with
  | nil => simp [encodedPairs]
  | cons p t ih =>
    obtain ⟨k, vo⟩ := p
    rw [List.map_cons, List.nodup_cons] at h
    have ht := ih h.2
    rcases vo with _ | v
    · rw [show encodedPairs ((k, none) :: t) = encodedPairs t from rfl]
      exact ht
    · rw [show encodedPairs ((k, some v) :: t)
          = (quotePlus k, quotePlus v) :: encodedPairs t from rfl,
        List.nodup_cons]
      refine ⟨?_, ht⟩
      intro hmem
      obtain ⟨p', hp', v', hv', he⟩ := encodedPairs_key_mem t _ hmem
      have hk : quotePlus p'.1 = quotePlus k :=
        (congrArg Prod.fst he).symm
      apply h.1
      rw [List.mem_map]
      exact ⟨p', hp', quotePlus_inj _ _ hk⟩

theorem buildQuery_encode (u : Chars) (ps : List (Chars × Option Chars))
    (hq0 : (urlparse u).query = []) : buildQuery u ps = encode_params ps := by
  simp only [buildQuery, hq0]
  by_cases hps : ps ≠ []
  · rw [if_pos hps, if_neg (fun h => h rfl)]
  · rw [if_neg hps]
    push_neg at hps
    subst hps
    rfl

/-! ### The built path cannot acquire a scheme -/

theorem dropWhile_head_false (p : Char → Bool) (l : Chars) (c : Char)
    (t : Chars) (h : l.dropWhile p = c :: t) : p c = false := by
  induction l with
  | nil => simp at h
  | cons x xs ih =>
    rw [List.dropWhile_cons] at h
    by_cases hp : p x = true
    · rw [if_pos hp] at h
      exact ih h
    · rw [if_neg hp] at h
      simp only [Bool.not_eq_true] at hp
      rw [← List.head_eq_of_cons_eq h]
      exact hp

theorem reverse_take_drop (l : Chars) :
    (l.reverse.dropWhile fun c => !(c == '/')).reverse
      ++ (l.reverse.takeWhile fun c => !(c == '/')).reverse = l := by
  rw [← List.reverse_append, List.takeWhile_append_dropWhile,
    List.reverse_reverse]

theorem splitparams_prefix (l : Chars) :
    ∃ rest, (splitparams l).1 ++ rest = l := by
  simp only [splitparams]
  by_cases h1 : l.contains '/' = true
  · rw [if_pos h1]
    by_cases h2 : ((l.reverse.takeWhile fun c =>
        !(c == '/')).reverse).contains ';' = true
    · rw [if_pos h2]
      refine ⟨(l.reverse.takeWhile fun c => !(c == '/')).reverse.dropWhile
        (fun c => !(c == ';')), ?_⟩
      show ((l.reverse.dropWhile fun c => !(c == '/')).reverse
          ++ (l.reverse.takeWhile fun c => !(c == '/')).reverse.takeWhile
            (fun c => !(c == ';')))
        ++ ((l.reverse.takeWhile fun c => !(c == '/')).reverse.dropWhile
            (fun c => !(c == ';'))) = l
      rw [List.append_assoc, List.takeWhile_append_dropWhile]
      exact reverse_take_drop l
    · rw [if_neg h2]
      exact ⟨[], List.append_nil l⟩
  · rw [if_neg h1]
    by_cases h2 : l.contains ';' = true
    · rw [if_pos h2]
      exact ⟨l.dropWhile fun c => !(c == ';'),
        List.takeWhile_append_dropWhile _ _⟩
    · rw [if_neg h2]
      exact ⟨[], List.append_nil l⟩

theorem urlparse_path_prefix (u : Chars) :
    ∃ rest, (urlparse u).path ++ rest = (urlsplit u).path := by
  rw [urlparse]
  by_cases h : usesParams.contains (urlsplit u).scheme
      && (urlsplit u).path.contains ';'
  · simp only [h, if_true, if_pos]
    exact splitparams_prefix (urlsplit u).path
  · simp only [h, Bool.false_eq_true, if_false, if_neg]
    exact ⟨[], List.append_nil _⟩

/-- When the base URL parses with no scheme and no netloc, its path
cannot itself look like a scheme. -/
theorem urlsplit_path_noScheme (u : Chars)
    (hs : (urlsplit u).scheme = []) :
    noScheme (urlsplit u).path := by
  have hns : noScheme (sanitize u) := schemeSplit_fst_empty _ hs
  have hsch : schemeSplit (sanitize u) = ([], sanitize u) :=
    schemeSplit_none _ hns
  have hpath : (urlsplit u).path =
      (querySplit (fragSplit (netlocSplit (sanitize u)).2).1).1 := by
    show (querySplit (fragSplit
      (netlocSplit (schemeSplit (sanitize u)).2).2).1).1 = _
    rw [hsch]
  rw [hpath]
  by_cases htake : (sanitize u).take 2 = ['/', '/']
  · obtain ⟨r, hr⟩ : ∃ r, sanitize u = '/' :: '/' :: r := by
      rcases hsu : sanitize u with _ | ⟨a, t1⟩
      · rw [hsu] at htake
        simp at htake
      · rcases t1 with _ | ⟨b, t2⟩
        · rw [hsu] at htake
          simp only [List.take_succ_cons, List.take_nil] at htake
          simp at htake
        · rw [hsu] at htake
          simp only [List.take_succ_cons, List.take_zero] at htake
          have ha := List.head_eq_of_cons_eq htake
          have hb := List.head_eq_of_cons_eq (List.tail_eq_of_cons_eq htake)
          exact ⟨t2, by rw [ha, hb]⟩
    rw [hr]
    rcases hdw : r.dropWhile (fun c => !isNetlocDelim c) with _ | ⟨d, t⟩
    · have hz : (querySplit (fragSplit
          (netlocSplit ('/' :: '/' :: r)).2).1).1 = [] := by
        show (querySplit (fragSplit
          (r.dropWhile fun c => !isNetlocDelim c)).1).1 = []
        rw [hdw]
        rfl
      rw [hz]
      exact noScheme_nil
    · have hd : isNetlocDelim d = true := by
        have h6 := dropWhile_head_false _ r d t hdw
        simpa using h6
      have hcases : d = '/' ∨ d = '?' ∨ d = '#' := by
        rw [isNetlocDelim] at hd
        rcases Bool.or_eq_true_iff.1 hd with h1 | h1
        · rcases Bool.or_eq_true_iff.1 h1 with h2 | h2
          · exact Or.inl (beq_iff_eq.1 h2)
          · exact Or.inr (Or.inl (beq_iff_eq.1 h2))
        · exact Or.inr (Or.inr (beq_iff_eq.1 h1))
      have hstep : (querySplit (fragSplit
          (netlocSplit ('/' :: '/' :: r)).2).1).1
          = (querySplit (fragSplit (d :: t)).1).1 := by
        show (querySplit (fragSplit
          (r.dropWhile fun c => !isNetlocDelim c)).1).1 = _
        rw [hdw]
      rw [hstep]
      rcases hcases with rfl | rfl | rfl
      · have e1 : (fragSplit ('/' :: t)).1
            = '/' :: (t.takeWhile fun c => !(c == '#')) := by
          rw [fragSplit]
          show ('/' :: t).takeWhile (fun c => !(c == '#')) = _
          rw [List.takeWhile_cons, if_pos (by decide)]
        have e2 : (querySplit ('/' ::
            (t.takeWhile fun c => !(c == '#')))).1
            = '/' :: ((t.takeWhile fun c => !(c == '#')).takeWhile
              fun c => !(c == '?')) := by
          rw [querySplit]
          show ('/' :: _).takeWhile (fun c => !(c == '?')) = _
          rw [List.takeWhile_cons, if_pos (by decide)]
        rw [e1, e2]
        exact noScheme_cons_not_alpha '/' _ (by decide)
      · have e1 : (fragSplit ('?' :: t)).1
            = '?' :: (t.takeWhile fun c => !(c == '#')) := by
          rw [fragSplit]
          show ('?' :: t).takeWhile (fun c => !(c == '#')) = _
          rw [List.takeWhile_cons, if_pos (by decide)]
        have e2 : (querySplit ('?' ::
            (t.takeWhile fun c => !(c == '#')))).1 = [] := by
          rw [querySplit]
          show ('?' :: (t.takeWhile fun c => !(c == '#'))).takeWhile
            (fun c => !(c == '?')) = []
          rw [List.takeWhile_cons, if_neg (by decide)]
        rw [e1, e2]
        exact noScheme_nil
      · have e1 : (fragSplit ('#' :: t)).1 = [] := by
          rw [fragSplit]
          show ('#' :: t).takeWhile (fun c => !(c == '#')) = []
          rw [List.takeWhile_cons, if_neg (by decide)]
        rw [e1]
        exact noScheme_nil
  · rw [netlocSplit_none _ htake]
    have hpre : ∃ rest, (querySplit (fragSplit (sanitize u)).1).1
        ++ rest = sanitize u := by
      refine ⟨(fragSplit (sanitize u)).1.dropWhile (fun c => !(c == '?'))
        ++ (sanitize u).dropWhile (fun c => !(c == '#')), ?_⟩
      show ((fragSplit (sanitize u)).1.takeWhile fun c => !(c == '?'))
        ++ ((fragSplit (sanitize u)).1.dropWhile (fun c => !(c == '?'))
          ++ (sanitize u).dropWhile fun c => !(c == '#')) = sanitize u
      rw [← List.append_assoc, List.takeWhile_append_dropWhile]
      exact List.takeWhile_append_dropWhile _ _
    obtain ⟨rest, hrest⟩ := hpre
    exact noScheme_prefix _ rest (by rw [hrest]; exact hns)

theorem urlparse_path_noScheme (u : Chars)
    (hs : (urlparse u).scheme = []) :
    noScheme (urlparse u).path := by
  obtain ⟨rest, hr⟩ := urlparse_path_prefix u
  have h1 : noScheme (urlsplit u).path :=
    urlsplit_path_noScheme u (by rw [← urlparse_scheme]; exact hs)
  exact noScheme_prefix _ rest (by rw [hr]; exact h1)

theorem urlparse_path_chars (u : Chars) :
    ∀ c ∈ (urlparse u).path,
      (c == '#') = false ∧ (c == '?') = false ∧ unsafeChar c = false :=
  fun c hc => (urlsplit_inv u).2.2.2.1 c
    ((urlparse_path_params_mem u).1 c hc)

theorem urlparse_params_chars (u : Chars) :
    ∀ c ∈ (urlparse u).params,
      (c == '#') = false ∧ (c == '?') = false ∧ unsafeChar c = false :=
  fun c hc => (urlsplit_inv u).2.2.2.1 c
    ((urlparse_path_params_mem u).2 c hc)

theorem buildPath_sanitize_noScheme (u : Chars) (comps : List Chars)
    (hs : (urlparse u).scheme = []) :
    noScheme (sanitize (buildPath u comps)) := by
  have hpns := urlparse_path_noScheme u hs
  have hpc : ∀ c ∈ (urlparse u).path, unsafeChar c = false :=
    fun c hc => (urlparse_path_chars u c hc).2.2
  have hsan : sanitize (urlparse u).path = (urlparse u).path :=
    sanitize_clean _ hpc
  simp only [buildPath]
  by_cases hcomp : comps ≠ []
  · rw [if_pos hcomp]
    by_cases hlast : (urlparse u).path.getLast? ≠ some '/'
    · rw [if_pos hlast, List.append_assoc, List.singleton_append,
        sanitize_append, hsan, sanitize_cons_clean '/' _ (by decide)]
      exact noScheme_append _ _ hpns
        (Or.inr (Or.inr ⟨'/', _, rfl, by decide, by decide⟩))
    · rw [if_neg hlast]
      push_neg at hlast
      rw [sanitize_append, hsan]
      refine noScheme_append _ _ hpns (Or.inl ?_)
      intro hnil
      have hall := List.dropWhile_eq_nil_iff.1 hnil
      have hmem : '/' ∈ (urlparse u).path :=
        List.mem_of_getLast?_eq_some hlast
      exact absurd (hall '/' hmem) (by decide)
  · rw [if_neg hcomp, hsan]
    exact hpns

theorem fullPath_sanitize_noScheme (u : Chars) (comps : List Chars)
    (hs : (urlparse u).scheme = []) :
    noScheme (sanitize (fullPath u comps)) := by
  have hb := buildPath_sanitize_noScheme u comps hs
  rw [fullPath]
  by_cases hpar : (urlparse u).params ≠ []
  · rw [if_pos hpar, sanitize_append,
      sanitize_cons_clean ';' _ (by decide)]
    exact noScheme_append _ _ hb
      (Or.inr (Or.inr ⟨';', _, rfl, by decide, by decide⟩))
  · rw [if_neg hpar]
    exact hb

theorem intercalate_slash_cons_cons (x y : Chars) (t : List Chars) :
    List.intercalate ['/'] (x :: y :: t)
      = x ++ '/' :: List.intercalate ['/'] (y :: t) := by
  rw [List.intercalate, List.intercalate, List.intersperse_cons_cons,
    List.flatten_cons, List.flatten_cons, List.singleton_append]

theorem mem_intercalate_slash (ls : List Chars) :
    ∀ c : Char, c ∈ List.intercalate ['/'] ls →
      c = '/' ∨ ∃ l ∈ ls, c ∈ l := by
  induction ls with
  | nil =>
    intro c h
    simp [List.intercalate] at h
  | cons x xs ih =>
    intro c h
    rcases xs with _ | ⟨y, t⟩
    · rw [show List.intercalate ['/'] [x] = x from by
        rw [List.intercalate, List.intersperse_single, List.flatten_cons,
          List.flatten_nil, List.append_nil]] at h
      exact Or.inr ⟨x, by simp, h⟩
    · rw [intercalate_slash_cons_cons x y t] at h
      rcases List.mem_append.1 h with hm | hm
      · exact Or.inr ⟨x, by simp, hm⟩
      · rcases List.mem_cons.1 hm with rfl | hm2
        · exact Or.inl rfl
        · rcases ih c hm2 with h1 | ⟨l, hl, hcl⟩
          · exact Or.inl h1
          · exact Or.inr ⟨l, List.mem_cons_of_mem x hl, hcl⟩

theorem buildPath_mem (u : Chars) (comps : List Chars) (c : Char)
    (h : c ∈ buildPath u comps) :
    c ∈ (urlparse u).path ∨ c = '/' ∨ ∃ l ∈ comps, c ∈ l := by
  simp only [buildPath] at h
  by_cases hcomp : comps ≠ []
  · rw [if_pos hcomp] at h
    rcases List.mem_append.1 h with hm | hm
    · by_cases hlast : (urlparse u).path.getLast? ≠ some '/'
      · rw [if_pos hlast] at hm
        rcases List.mem_append.1 hm with hm2 | hm2
        · exact Or.inl hm2
        · rw [List.mem_singleton] at hm2
          exact Or.inr (Or.inl hm2)
      · rw [if_neg hlast] at hm
        exact Or.inl hm
    · rcases mem_intercalate_slash _ c hm with rfl | ⟨l, hl, hcl⟩
      · exact Or.inr (Or.inl rfl)
      · exact Or.inr (Or.inr ⟨l, List.mem_of_mem_filter hl, hcl⟩)
  · rw [if_neg hcomp] at h
    exact Or.inl h

theorem fullPath_chars (u : Chars) (comps : List Chars)
    (hcomps : ∀ l ∈ comps, ∀ c ∈ l,
      (c == '#') = false ∧ (c == '?') = false) :
    ∀ c ∈ fullPath u comps,
      (c == '#') = false ∧ (c == '?') = false := by
  have hbp : ∀ c ∈ buildPath u comps,
      (c == '#') = false ∧ (c == '?') = false := by
    intro c hc
    rcases buildPath_mem u comps c hc with h1 | rfl | ⟨l, hl, hcl⟩
    · have h2 := urlparse_path_chars u c h1
      exact ⟨h2.1, h2.2.1⟩
    · exact ⟨by decide, by decide⟩
    · exact hcomps l hl c hcl
  intro c hc
  rw [fullPath] at hc
  by_cases hpar : (urlparse u).params ≠ []
  · rw [if_pos hpar] at hc
    rcases List.mem_append.1 hc with hm | hm
    · exact hbp c hm
    · rcases List.mem_cons.1 hm with rfl | hm2
      · exact ⟨by decide, by decide⟩
      · have h2 := urlparse_params_chars u c hm2
        exact ⟨h2.1, h2.2.1⟩
  · rw [if_neg hpar] at hc
    exact hbp c hc

theorem build_url_eq (u : Chars) (comps : List Chars)
    (ps : List (Chars × Option Chars)) :
    build_url u comps ps = urlunsplit
      ⟨(urlparse u).scheme, (urlparse u).netloc, fullPath u comps,
       buildQuery u ps, (urlparse u).fragment⟩ := by
  simp only [build_url, urlunparse, fullPath]

/-! ### C4: the builder round-trip -/

/-- C4 counterexample: the unrestricted round-trip claim fails on three
counts.  (1) For the base URL `http://h/p?b=25` and parameter `{b: 2}`,
the output query string is `b=25b=2` (appended with no separator), and
the percent-encoded pair `b=2` does not occur among its key=value
pairs.  (2) For the base URL `http:////x`, the output `http://x` parses
with netloc `x`, not the base's empty netloc.  (3) A `#` inside a path
segment becomes a fragment boundary: for base `http://h/p`, segment
`s#t` and parameter `{a: 1}`, the pair `a=1` is absent from the
output's query string. -/
theorem build_url_roundtrip_counterexample :
    ((quotePlus "b".data, quotePlus "2".data) ∉
      queryPairs (urlparse (build_url "http://h/p?b=25".data []
        [("b".data, some "2".data)])).query)
    ∧ (urlparse (build_url "http:////x".data [] [])).netloc
      ≠ (urlparse "http:////x".data).netloc
    ∧ ((quotePlus "a".data, quotePlus "1".data) ∉
      queryPairs (urlparse (build_url "http://h/p".data ["s#t".data]
        [("a".data, some "1".data)])).query) := by decide

/-- C4 (amended): for every base URL `u`, path segments `comps` and
parameter mapping `ps`, provided (i) the segments contain no `#` or `?`,
(ii) the base URL's parse carries no query string of its own, (iii) the
base URL's parse has a nonempty netloc, or else the reassembled path
does not begin with `//`, and (iv) the parameter keys are distinct
(as they are for a Python `dict`), the output of `build_url` parses
back into the same scheme and the same netloc as the base URL; the
key=value pairs of its query string are exactly the percent-encoded
non-null parameters in order; in particular every non-null parameter
occurs as a percent-encoded `key=value` pair exactly once, and the key
of every null-valued parameter is absent from the output's query
string. -/
theorem build_url_roundtrip (u : Chars) (comps : List Chars)
    (ps : List (Chars × Option Chars))
    (hcomps : ∀ l ∈ comps, ∀ c ∈ l,
      (c == '#') = false ∧ (c == '?') = false)
    (hq0 : (urlparse u).query = [])
    (hnet : (urlparse u).netloc ≠ [] ∨
      (sanitize (fullPath u comps)).take 2 ≠ ['/', '/'])
    (hkeys : (ps.map Prod.fst).Nodup) :
    (urlparse (build_url u comps ps)).scheme = (urlparse u).scheme
    ∧ (urlparse (build_url u comps ps)).netloc = (urlparse u).netloc
    ∧ queryPairs (urlparse (build_url u comps ps)).query = encodedPairs ps
    ∧ (∀ k v, (k, some v) ∈ ps →
        (queryPairs (urlparse (build_url u comps ps)).query).countP
          (fun x => decide (x = (quotePlus k, quotePlus v))) = 1)
    ∧ (∀ k, (k, none) ∈ ps →
        quotePlus k ∉
          (queryPairs (urlparse (build_url u comps ps)).query).map
            Prod.fst) := by
  have hinv := urlsplit_inv u
  have hschc : ∀ c ∈ (urlparse u).scheme,
      isSchemeChar c = true ∧ Char.toLower c = c := by
    rw [urlparse_scheme]
    exact hinv.1
  have hschh : (urlparse u).scheme ≠ [] →
      isAsciiAlpha ((urlparse u).scheme.headD ' ') = true := by
    rw [urlparse_scheme]
    exact hinv.2.1
  have hnlc : ∀ c ∈ (urlparse u).netloc,
      isNetlocDelim c = false ∧ unsafeChar c = false := by
    rw [urlparse_netloc]
    exact hinv.2.2.1
  have hfc : ∀ c ∈ (urlparse u).fragment, unsafeChar c = false := by
    rw [urlparse_fragment]
    exact hinv.2.2.2.2.2
  have hq2c : ∀ c ∈ buildQuery u ps,
      (c == '#') = false ∧ unsafeChar c = false := by
    rw [buildQuery_encode u ps hq0]
    intro c hc
    have h5 := encode_params_chars ps c hc
    exact ⟨h5.1, h5.2.2⟩
  have hq2clean : ∀ c ∈ buildQuery u ps, unsafeChar c = false :=
    fun c hc => (hq2c c hc).2
  have hnos : (urlparse u).scheme = [] → (urlparse u).netloc = [] →
      noScheme (sanitize (fullPath u comps)) :=
    fun hsc _ => fullPath_sanitize_noScheme u comps hsc
  have hp2 := fullPath_chars u comps hcomps
  have hscheme := reparse_scheme (urlparse u).scheme (urlparse u).netloc
    (fullPath u comps) (buildQuery u ps) (urlparse u).fragment
    hschc hschh (fun c hc => (hnlc c hc).2) hq2clean hfc hnos
  have hnetloc : (urlsplit (urlunsplit ⟨(urlparse u).scheme,
      (urlparse u).netloc, fullPath u comps, buildQuery u ps,
      (urlparse u).fragment⟩)).netloc = (urlparse u).netloc := by
    by_cases hne : (urlparse u).netloc ≠ []
    · exact reparse_netloc_some _ _ _ _ _ hschc hschh hnlc hq2clean hfc hne
    · push_neg at hne
      rcases hnet with hnet1 | htake
      · exact absurd hne hnet1
      · rw [hne]
        exact reparse_netloc_none (urlparse u).scheme (fullPath u comps)
          (buildQuery u ps) (urlparse u).fragment hschc hschh hq2clean hfc
          (fun hsc => hnos hsc hne) htake
  have hqf := reparse_query_frag (urlparse u).scheme (urlparse u).netloc
    (fullPath u comps) (buildQuery u ps) (urlparse u).fragment
    hschc hnlc hq2c hfc hp2
  have hs' : (urlparse (build_url u comps ps)).scheme
      = (urlparse u).scheme := by
    rw [build_url_eq]
    exact hscheme
  have hn' : (urlparse (build_url u comps ps)).netloc
      = (urlparse u).netloc := by
    rw [build_url_eq]
    exact hnetloc
  have hq' : (urlparse (build_url u comps ps)).query
      = encode_params ps := by
    rw [build_url_eq]
    have h6 : (urlsplit (urlunsplit ⟨(urlparse u).scheme,
        (urlparse u).netloc, fullPath u comps, buildQuery u ps,
        (urlparse u).fragment⟩)).query = buildQuery u ps := hqf.1
    rw [urlparse_query, h6, buildQuery_encode u ps hq0]
  refine ⟨hs', hn', ?_, ?_, ?_⟩
  · rw [hq', encode_params_pairs]
  · intro k v hkv
    rw [hq', encode_params_pairs]
    exact countP_eq_one_of_nodup_mem _ _ (encodedPairs_nodup ps hkeys)
      (encodedPairs_mem ps k v hkv)
  · intro k hk hmem
    rw [hq', encode_params_pairs, List.mem_map] at hmem
    obtain ⟨q, hqm, hfst⟩ := hmem
    obtain ⟨p, hp, v, hv, rfl⟩ := encodedPairs_key_mem ps q hqm
    have hpk : p.1 = k := quotePlus_inj _ _ hfst
    have hpe : p = (k, none) :=
      List.inj_on_of_nodup_map hkeys hp hk (by rw [hpk])
    rw [hpe] at hv
    simp at hv

/-- Witness for the amended C4 at the concrete base URL `http://h/p`,
the path segment `d` and the parameter mapping `{a: 1, b: null}`. -/
theorem build_url_roundtrip_witness :
    (∀ l ∈ [("d".data : Chars)], ∀ c ∈ l,
      (c == '#') = false ∧ (c == '?') = false)
    ∧ (urlparse "http://h/p".data).query = []
    ∧ ((urlparse "http://h/p".data).netloc ≠ [] ∨
        (sanitize (fullPath "http://h/p".data ["d".data])).take 2
          ≠ ['/', '/'])
    ∧ (([(("a".data : Chars), some ("1".data : Chars)),
        (("b".data : Chars), none)].map Prod.fst).Nodup)
    ∧ ((urlparse (build_url "http://h/p".data ["d".data]
          [("a".data, some "1".data), ("b".data, none)])).scheme
        = (urlparse "http://h/p".data).scheme
      ∧ (urlparse (build_url "http://h/p".data ["d".data]
          [("a".data, some "1".data), ("b".data, none)])).netloc
        = (urlparse "http://h/p".data).netloc
      ∧ queryPairs (urlparse (build_url "http://h/p".data ["d".data]
          [("a".data, some "1".data), ("b".data, none)])).query
        = encodedPairs [("a".data, some "1".data), ("b".data, none)]
      ∧ (∀ k v, (k, some v) ∈
            [(("a".data : Chars), some ("1".data : Chars)),
             (("b".data : Chars), none)] →
          (queryPairs (urlparse (build_url "http://h/p".data ["d".data]
              [("a".data, some "1".data), ("b".data, none)])).query).countP
            (fun x => decide (x = (quotePlus k, quotePlus v))) = 1)
      ∧ (∀ k, (k, none) ∈
            [(("a".data : Chars), some ("1".data : Chars)),
             (("b".data : Chars), none)] →
          quotePlus k ∉
            (queryPairs (urlparse (build_url "http://h/p".data ["d".data]
              [("a".data, some "1".data), ("b".data, none)])).query).map
              Prod.fst)) :=
  ⟨by decide, by decide, Or.inl (by decide), by decide,
    build_url_roundtrip "http://h/p".data ["d".data]
      [("a".data, some "1".data), ("b".data, none)]
      (by decide) (by decide) (Or.inl (by decide)) (by decide)⟩

end Imagenet
